import Mathlib

/-!
Verification of the node-sqli statement-queue / result-cursor core.

This file gives a shallow embedding of the repository's two implementation
lineages of the `ResultPromise` (result cursor) and of the JavaScript
`ConnectionPromise` (connection promise / statement queue), together with the
PostgreSQL placeholder rewriter, and proves or refutes the frozen claims
about them.

Conventions of the embedding:
* JavaScript `null` on a field becomes `Option.none`.
* User callbacks cannot be stored as closures in a first-order model, so the
  machine instead records every invocation of a user callback in an output
  log (`out` / `trace`).  Which consumer closure is stored in `_callback`
  is remembered by a `mode` tag and the closure's body is re-run by
  `runConsume` exactly as the corresponding JavaScript closure would run.
* Operations that `throw` return `Except.error` with the thrown message and
  leave the state unchanged (the JavaScript methods throw before mutating).
* Asynchronous driver events (row / end / error callbacks) and the
  `process.nextTick` queue are modelled as explicit actions interleaved with
  the user's calls; an interpreter folds a list of actions over the state.
-/

set_option maxHeartbeats 1000000

namespace Sqli

/-- A row object: an ordered association of column names to values
(JavaScript objects preserve insertion order in `for..in`). -/
def Row : Type := List (String × String)

instance : DecidableEq Row := by unfold Row; infer_instance

instance : Repr Row := by unfold Row; infer_instance

instance : Inhabited Row := ⟨([] : List (String × String))⟩

/-- Which consumer closure is stored in the `_callback` slot of a
`ResultPromise` (`all`, `each`, `first`, or `first` wrapped by `scalar`). -/
inductive Mode where
  | all
  | each
  | first
  | scalar
deriving DecidableEq, Repr

/-- One recorded invocation of a user callback by a result cursor. -/
inductive ROut where
  /-- `each`-mode delivered one row together with its running index. -/
  | rowOut (r : Row) (idx : Nat)
  /-- `all`-mode delivered the buffered row list. -/
  | allOut (rows : List Row)
  /-- `first`-mode delivered the first row, or `none` for the explicit
  `cb(null)` call. -/
  | firstOut (r : Option Row)
  /-- `scalar`-mode delivered the value of the first column. -/
  | scalarOut (v : String)
  /-- the `then` handler fired with the stored error (or `none`). -/
  | thenOut (e : Option String)
deriving DecidableEq, Repr

/-- State of a `ResultPromise` (both lineages share the same fields;
`src/lib/sqli.js` lines 374-398 / `src/src/sqli.coffee` lines 332-351). -/
structure RP where
  buffer : Option (List Row)
  rowIdx : Nat
  rpError : Option String
  mode : Option Mode
  thenSet : Bool
  finished : Bool
  done : Bool
  out : List ROut
deriving DecidableEq, Repr

/-- The freshly constructed `ResultPromise`. -/
def RP.init : RP :=
  { buffer := some [], rowIdx := 0, rpError := none, mode := none,
    thenSet := false, finished := false, done := false, out := [] }

/-- The loop body of the JS `each` consumer closure
(`src/lib/sqli.js` lines 436-442):
`for (var i = 0; i < buffer.length; i++) { cb(buffer.shift(), rowIdx); rowIdx++ }`.
The buffer shrinks while `i` grows, so each call drains only half of a
pre-filled buffer.  Returns (emitted outputs, remaining buffer, new rowIdx). -/
def eachLoop : Nat → List Row → Nat → List ROut × List Row × Nat
  | _, [], idx => ([], [], idx)
  | i, r :: rest, idx =>
    if i < (r :: rest).length then
      let p := eachLoop (i + 1) rest (idx + 1)
      (ROut.rowOut r idx :: p.1, p.2.1, p.2.2)
    else ([], r :: rest, idx)

/-- The `scalar` wrapper around the row handed to `first`
(`src/lib/sqli.js` lines 472-479): `for (var k in firstRow) { cb(firstRow[k]); break; }`.
Iterating over `null` or an empty object performs zero iterations. -/
def scalarEmit : Option Row → List ROut
  | none => []
  | some [] => []
  | some ((_, v) :: _) => [ROut.scalarOut v]

/-- Run the consumer closure stored in `_callback`, exactly as the
corresponding JS closure body would (`src/lib/sqli.js` lines 416-479). -/
def runConsume (st : RP) : RP :=
  match st.mode with
  | none => st
  | some Mode.all =>
    match st.buffer with
    | some buf =>
      if st.finished then
        { st with buffer := none, out := st.out ++ [ROut.allOut buf] }
      else st
    | none => st
  | some Mode.each =>
    match st.buffer with
    | some buf =>
      let p := eachLoop 0 buf st.rowIdx
      { st with buffer := some p.2.1, rowIdx := p.2.2, out := st.out ++ p.1 }
    | none => st
  | some Mode.first =>
    match st.buffer with
    | some (r :: _) =>
      { st with buffer := none, out := st.out ++ [ROut.firstOut (some r)] }
    | _ =>
      if st.finished ∧ st.rpError ≠ none then
        { st with out := st.out ++ [ROut.firstOut none] }
      else st
  | some Mode.scalar =>
    match st.buffer with
    | some (r :: _) =>
      { st with buffer := none, out := st.out ++ scalarEmit (some r) }
    | _ =>
      if st.finished ∧ st.rpError ≠ none then
        { st with out := st.out ++ scalarEmit none }
      else st

/-- Fire the `then` handler if attached, finished and not yet done
(`src/lib/sqli.js` lines 488-493). -/
def runThen (st : RP) : RP :=
  if st.thenSet ∧ st.finished then
    (if st.done then st
     else { st with done := true, out := st.out ++ [ROut.thenOut st.rpError] })
  else st

/-- `_flush` of the JS lineage (`src/lib/sqli.js` lines 400-403): the
consumer callback runs unconditionally, then the `then` handler. -/
def flush (st : RP) : RP :=
  runThen (runConsume st)

/-- `_flush` of the CoffeeScript lineage (`src/src/sqli.coffee` lines
353-355): the consumer callback runs only while no error is stored. -/
def flushC (st : RP) : RP :=
  runThen (if st.rpError = none then runConsume st else st)

/-- The body of the Coffee `each` consumer (`src/src/sqli.coffee` lines
381-388): `while @_buffer.length` — drains the whole buffer. -/
def eachLoopC : List Row → Nat → List ROut × Nat
  | [], idx => ([], idx)
  | r :: rest, idx =>
    let p := eachLoopC rest (idx + 1)
    (ROut.rowOut r idx :: p.1, p.2)

/-- Coffee-lineage consumer dispatch; identical to `runConsume` except that
`each` drains the whole buffer and `first`/`scalar` keep the same branches
(`src/src/sqli.coffee` lines 367-415). -/
def runConsumeC (st : RP) : RP :=
  match st.mode with
  | none => st
  | some Mode.all =>
    match st.buffer with
    | some buf =>
      if st.finished then
        { st with buffer := none, out := st.out ++ [ROut.allOut buf] }
      else st
    | none => st
  | some Mode.each =>
    match st.buffer with
    | some buf =>
      let p := eachLoopC buf st.rowIdx
      { st with buffer := some [], rowIdx := p.2, out := st.out ++ p.1 }
    | none => st
  | some Mode.first =>
    match st.buffer with
    | some (r :: _) =>
      { st with buffer := none, out := st.out ++ [ROut.firstOut (some r)] }
    | _ =>
      if st.finished ∧ st.rpError ≠ none then
        { st with out := st.out ++ [ROut.firstOut none] }
      else st
  | some Mode.scalar =>
    match st.buffer with
    | some (r :: _) =>
      { st with buffer := none, out := st.out ++ scalarEmit (some r) }
    | _ =>
      if st.finished ∧ st.rpError ≠ none then
        { st with out := st.out ++ scalarEmit none }
      else st

/-- Coffee `_flush` with the Coffee consumers. -/
def flushCo (st : RP) : RP :=
  runThen (if st.rpError = none then runConsumeC st else st)

/-- `resolver.on('row')` handler (`src/lib/sqli.js` lines 384-388). -/
def onRow (r : Row) (st : RP) : RP :=
  match st.buffer with
  | none => st
  | some buf => flush { st with buffer := some (buf ++ [r]) }

/-- `resolver.on('end')` handler (`src/lib/sqli.js` lines 389-392). -/
def onEnd (st : RP) : RP :=
  flush { st with finished := true }

/-- `resolver.on('error')` handler (`src/lib/sqli.js` lines 393-397). -/
def onErr (e : String) (st : RP) : RP :=
  flush { st with rpError := some e, finished := true }

/-- Coffee-lineage event handlers (`src/src/sqli.coffee` lines 341-351). -/
def onRowC (r : Row) (st : RP) : RP :=
  match st.buffer with
  | none => st
  | some buf => flushCo { st with buffer := some (buf ++ [r]) }

def onEndC (st : RP) : RP :=
  flushCo { st with finished := true }

def onErrC (e : String) (st : RP) : RP :=
  flushCo { st with rpError := some e, finished := true }

/-- `_consume` (`src/lib/sqli.js` lines 405-409): throws if a consumer
callback is already stored. -/
def consume (m : Mode) (st : RP) : Except String RP :=
  if st.mode.isSome then Except.error "Result callback already set"
  else Except.ok { st with mode := some m }

/-- `all(cb)` (`src/lib/sqli.js` lines 416-426): `_consume` then `_flush`. -/
def attachAll (st : RP) : Except String RP :=
  (consume Mode.all st).map flush

/-- `each(cb)` (`src/lib/sqli.js` lines 434-445). -/
def attachEach (st : RP) : Except String RP :=
  (consume Mode.each st).map flush

/-- `first(cb)` (`src/lib/sqli.js` lines 452-464). -/
def attachFirst (st : RP) : Except String RP :=
  (consume Mode.first st).map flush

/-- `scalar(cb)` (`src/lib/sqli.js` lines 472-479): delegates to `first`
with the scalar-extracting wrapper as callback. -/
def attachScalar (st : RP) : Except String RP :=
  (consume Mode.scalar st).map flush

/-- `then(cb)` (`src/lib/sqli.js` lines 485-496): throws if a `then`
handler is already stored, then flushes. -/
def attachThen (st : RP) : Except String RP :=
  if st.thenSet then Except.error "'then' callback already set"
  else Except.ok (flush { st with thenSet := true })

/-- Coffee-lineage attach operations (`src/src/sqli.coffee` lines 357-429);
only the flush differs. -/
def attachEachC (st : RP) : Except String RP :=
  (consume Mode.each st).map flushCo

def attachAllC (st : RP) : Except String RP :=
  (consume Mode.all st).map flushCo

def attachFirstC (st : RP) : Except String RP :=
  (consume Mode.first st).map flushCo

def attachThenC (st : RP) : Except String RP :=
  if st.thenSet then Except.error "'then' callback already set"
  else Except.ok (flushCo { st with thenSet := true })

/-- One interaction with a result cursor: a driver event or a user attach. -/
inductive RAct where
  | row (r : Row)
  | endEv
  | errEv (e : String)
  | all
  | each
  | first
  | scalar
  | thenA
deriving DecidableEq, Repr

/-- Total step function for the JS-lineage result cursor: a throwing attach
leaves the state unchanged (the exception propagates to the caller before
any mutation). -/
def stepRP (st : RP) (a : RAct) : RP :=
  match a with
  | RAct.row r => onRow r st
  | RAct.endEv => onEnd st
  | RAct.errEv e => onErr e st
  | RAct.all => ((attachAll st).toOption).getD st
  | RAct.each => ((attachEach st).toOption).getD st
  | RAct.first => ((attachFirst st).toOption).getD st
  | RAct.scalar => ((attachScalar st).toOption).getD st
  | RAct.thenA => ((attachThen st).toOption).getD st

/-- Total step function for the Coffee-lineage result cursor. -/
def stepRPC (st : RP) (a : RAct) : RP :=
  match a with
  | RAct.row r => onRowC r st
  | RAct.endEv => onEndC st
  | RAct.errEv e => onErrC e st
  | RAct.all => ((attachAllC st).toOption).getD st
  | RAct.each => ((attachEachC st).toOption).getD st
  | RAct.first => ((attachFirstC st).toOption).getD st
  | RAct.scalar => (((consume Mode.scalar st).map flushCo).toOption).getD st
  | RAct.thenA => ((attachThenC st).toOption).getD st

/-- Run the JS-lineage cursor over a list of interactions. -/
def runRP (acts : List RAct) : RP :=
  acts.foldl stepRP RP.init

/-- Run the Coffee-lineage cursor over a list of interactions. -/
def runRPC (acts : List RAct) : RP :=
  acts.foldl stepRPC RP.init

/-! ## PostgreSQL placeholder rewriting (`src/lib/postgres.js` lines 67-88) -/

/-- The single-quote character. -/
def squote : Char := Char.ofNat 39

/-- Loop of `replaceQMarks` (`src/lib/postgres.js` lines 72-85).  The JS
tracks `currentIndex` and pushes `sql.substring(currentIndex, i)` when it
meets an unquoted `?`; the embedding accumulates that same pending segment
character by character in `seg` and keeps the pushed pieces in `rv`.
After the loop the remainder is pushed and everything joined (lines 86-87). -/
def replaceQMarksGo : List Char → Bool → Nat → List Char → List (List Char) → List Char
  | [], _, _, seg, rv => (rv ++ [seg]).flatten
  | c :: cs, insideQuote, parameterIndex, seg, rv =>
    if insideQuote then
      replaceQMarksGo cs (if c = squote then false else true) parameterIndex (seg ++ [c]) rv
    else if c = '?' then
      replaceQMarksGo cs false (parameterIndex + 1) []
        (rv ++ [seg, '$' :: (toString parameterIndex).toList])
    else if c = squote then
      replaceQMarksGo cs true parameterIndex (seg ++ [c]) rv
    else
      replaceQMarksGo cs false parameterIndex (seg ++ [c]) rv

/-- `replaceQMarks(sql)` (`src/lib/postgres.js` lines 67-88). -/
def replaceQMarks (sql : String) : String :=
  String.mk (replaceQMarksGo sql.toList false 1 [] [])

/-- The rewrite described by the spec, stated independently of the source's
segment bookkeeping: scanning left to right, a `?` outside single-quoted
literals becomes `$1`, `$2`, … in order of appearance; every other
character — including any `?` between single quotes — is kept untouched. -/
def qmarkRewriteGo : List Char → Bool → Nat → List Char
  | [], _, _ => []
  | c :: cs, true, n => c :: qmarkRewriteGo cs (if c = squote then false else true) n
  | c :: cs, false, n =>
    if c = '?' then '$' :: (toString n).toList ++ qmarkRewriteGo cs false (n + 1)
    else if c = squote then c :: qmarkRewriteGo cs true n
    else c :: qmarkRewriteGo cs false n

/-- The spec-side rewrite applied to a whole string. -/
def qmarkRewrite (sql : String) : String :=
  String.mk (qmarkRewriteGo sql.toList false 1)

theorem replaceQMarksGo_eq_spec (cs : List Char) :
    ∀ q n seg rv, replaceQMarksGo cs q n seg rv =
      rv.flatten ++ seg ++ qmarkRewriteGo cs q n := by
  induction cs with
  | nil =>
    intro q n seg rv
    simp [replaceQMarksGo, qmarkRewriteGo]
  | cons c cs ih =>
    intro q n seg rv
    cases q with
    | true =>
      simp only [replaceQMarksGo, qmarkRewriteGo, if_pos rfl]
      rw [ih]
      simp
    | false =>
      by_cases hq : c = '?'
      · subst hq
        simp [replaceQMarksGo, qmarkRewriteGo, ih]
      · by_cases hs : c = squote
        · subst hs
          simp [replaceQMarksGo, qmarkRewriteGo, ih, hq]
        · simp [replaceQMarksGo, qmarkRewriteGo, hq, hs, ih]

/-! ## Preservation lemmas for the result-cursor machines -/

theorem runConsume_mode (st : RP) : (runConsume st).mode = st.mode := by
  unfold runConsume
  repeat' split
  all_goals rfl

theorem runConsume_thenSet (st : RP) : (runConsume st).thenSet = st.thenSet := by
  unfold runConsume
  repeat' split
  all_goals rfl

theorem runThen_mode (st : RP) : (runThen st).mode = st.mode := by
  unfold runThen
  repeat' split
  all_goals rfl

theorem runThen_thenSet (st : RP) : (runThen st).thenSet = st.thenSet := by
  unfold runThen
  repeat' split
  all_goals rfl

theorem flush_mode (st : RP) : (flush st).mode = st.mode := by
  unfold flush
  rw [runThen_mode, runConsume_mode]

theorem flush_thenSet (st : RP) : (flush st).thenSet = st.thenSet := by
  unfold flush
  rw [runThen_thenSet, runConsume_thenSet]

/-- Attaching one of the row-consuming modes (`all`/`each`/`first`/`scalar`):
`_consume` followed by `_flush`, shared shape of the four methods. -/
def attachMode (m : Mode) (st : RP) : Except String RP :=
  (consume m st).map flush

theorem attachMode_ok {m : Mode} {st st' : RP}
    (h : attachMode m st = Except.ok st') :
    st.mode = none ∧ st' = flush { st with mode := some m } := by
  unfold attachMode consume at h
  rcases hm : st.mode with _ | m'
  · rw [hm] at h
    simp only [Option.isSome_none, Bool.false_eq_true, if_false, Except.map,
      Except.ok.injEq] at h
    exact ⟨rfl, h.symm⟩
  · rw [hm] at h
    simp only [Option.isSome_some, if_true, Except.map] at h
    exact absurd h (by simp)

theorem attachThen_ok {st st' : RP}
    (h : attachThen st = Except.ok st') :
    st.thenSet = false ∧ st' = flush { st with thenSet := true } := by
  unfold attachThen at h
  cases ht : st.thenSet
  · rw [ht] at h
    simp only [Bool.false_eq_true, if_false, Except.ok.injEq] at h
    exact ⟨rfl, h.symm⟩
  · rw [ht] at h
    simp at h

/-! ## Claims about the result cursor settled by direct computation -/

/-- C9: `replaceQMarks` is a pure function that replaces every `?` outside
single-quote-delimited literals by `$1`, `$2`, … in order of appearance and
leaves `?` characters between single quotes untouched (`qmarkRewrite` is
that rewrite, transcribed from the spec's words); in particular the
spec's example rewrites as stated. -/
theorem C9_replaceQMarks_spec :
    (∀ sql : String, replaceQMarks sql = qmarkRewrite sql) ∧
    replaceQMarks "select * from t where a=? and b='x?y' and c=?" =
      "select * from t where a=$1 and b='x?y' and c=$2" := by
  constructor
  · intro sql
    unfold replaceQMarks qmarkRewrite
    rw [replaceQMarksGo_eq_spec]
    simp
  · rfl

/-- C6: after one of `all`/`each`/`first`/`scalar` is attached to a cursor,
attaching a second consumption mode throws; `then` may be attached exactly
once regardless of which (if any) consumption mode is attached, and a
second `then` throws. -/
theorem C6_consume_once :
    (∀ (st st' : RP) (m m' : Mode), attachMode m st = Except.ok st' →
      (attachMode m' st').isOk = false) ∧
    (∀ (st st' : RP) (m : Mode), attachMode m st = Except.ok st' →
      st.thenSet = false → (attachThen st').isOk = true) ∧
    (∀ (st st' : RP) (m : Mode), attachThen st = Except.ok st' →
      st.mode = none → (attachMode m st').isOk = true) ∧
    (∀ st st' : RP, attachThen st = Except.ok st' →
      (attachThen st').isOk = false) := by
  refine ⟨?_, ?_, ?_, ?_⟩
  · intro st st' m m' h
    obtain ⟨-, hst⟩ := attachMode_ok h
    have : st'.mode = some m := by rw [hst, flush_mode]
    simp [attachMode, consume, this, Except.map, Except.isOk, Except.toBool]
  · intro st st' m h ht
    obtain ⟨-, hst⟩ := attachMode_ok h
    have : st'.thenSet = false := by rw [hst, flush_thenSet]; exact ht
    simp [attachThen, this, Except.isOk, Except.toBool]
  · intro st st' m h hm
    obtain ⟨-, hst⟩ := attachThen_ok h
    have : st'.mode = none := by rw [hst, flush_mode]; exact hm
    simp [attachMode, consume, this, Except.map, Except.isOk, Except.toBool]
  · intro st st' h
    obtain ⟨-, hst⟩ := attachThen_ok h
    have : st'.thenSet = true := by rw [hst, flush_thenSet]
    simp [attachThen, this, Except.isOk, Except.toBool]

/-- Witness for C6 at concrete cursors. -/
theorem C6_consume_once_witness :
    (attachMode Mode.each (flush { RP.init with mode := some Mode.all })).isOk = false ∧
    (attachThen (flush { RP.init with mode := some Mode.all })).isOk = true ∧
    (attachMode Mode.first (flush { RP.init with thenSet := true })).isOk = true ∧
    (attachThen (flush { RP.init with thenSet := true })).isOk = false := by
  refine ⟨?_, ?_, ?_, ?_⟩
  · exact C6_consume_once.1 RP.init _ Mode.all Mode.each rfl
  · exact C6_consume_once.2.1 RP.init _ Mode.all rfl rfl
  · exact C6_consume_once.2.2.1 RP.init _ Mode.first rfl rfl
  · exact C6_consume_once.2.2.2 RP.init _ rfl

/-- Counterexample for C5 on the JS lineage (`src/lib/sqli.js`): a row is
buffered, an error is signaled, and only then is `each` attached; the
buffered row IS delivered to the `each` callback, because the JS `_flush`
runs the consumer callback unconditionally.  The claim says rows already
buffered when the error is signaled are not delivered. -/
theorem C5_each_counterexample :
    (runRP [RAct.row [("stringcol", "abc")], RAct.errEv "boom"]).rpError
        = some "boom" ∧
    (runRP [RAct.row [("stringcol", "abc")], RAct.errEv "boom"]).buffer
        = some [[("stringcol", "abc")]] ∧
    (runRP [RAct.row [("stringcol", "abc")], RAct.errEv "boom", RAct.each]).out
        = [ROut.rowOut [("stringcol", "abc")] 0] :=
  ⟨rfl, rfl, rfl⟩

/-- Counterexample for C7 on the JS lineage: a row arrives, the statement
terminates with an error — no end signal ever occurs — and attaching `all`
still invokes the callback with the buffered row, because `_finished` is
also set by the error handler. -/
theorem C7_all_counterexample :
    (runRP [RAct.row [("id", "1")], RAct.errEv "boom", RAct.all]).out
        = [ROut.allOut [[("id", "1")]]] ∧
    RAct.endEv ∉ [RAct.row [("id", "1")], RAct.errEv "boom", RAct.all] :=
  ⟨rfl, by decide⟩

/-! ## Classifiers over cursor interactions and outputs -/

/-- Is this action a row arrival? -/
def isRowAct : RAct → Bool
  | RAct.row _ => true
  | _ => false

/-- Is this action an error signal? -/
def isErrAct : RAct → Bool
  | RAct.errEv _ => true
  | _ => false

/-- Is this action a terminal driver signal (end or error)? -/
def isTermAct : RAct → Bool
  | RAct.endEv => true
  | RAct.errEv _ => true
  | _ => false

/-- Did `first` or `scalar` invoke its user callback? -/
def isFirstish : ROut → Bool
  | ROut.firstOut _ => true
  | ROut.scalarOut _ => true
  | _ => false

/-- Is this an `each`-mode row delivery? -/
def isRowOut : ROut → Bool
  | ROut.rowOut _ _ => true
  | _ => false

/-- Is this an `all`-mode delivery? -/
def isAllOut : ROut → Bool
  | ROut.allOut _ => true
  | _ => false

/-- The `each` deliveries recorded in an output log, in order. -/
def deliveredRows (l : List ROut) : List ROut := l.filter isRowOut

/-- The `all` deliveries recorded in an output log. -/
def allOuts (l : List ROut) : List ROut := l.filter isAllOut

/-- The rows that arrived over an interaction sequence, in arrival order. -/
def arrived (acts : List RAct) : List Row :=
  acts.filterMap fun a => match a with | RAct.row r => some r | _ => none

/-- The full in-order `each` delivery of a row sequence starting at running
index `i`: every row exactly once, in order, with consecutive indices. -/
def fullDelivery : List Row → Nat → List ROut
  | [], _ => []
  | r :: rest, i => ROut.rowOut r i :: fullDelivery rest (i + 1)

/-! ## More preservation lemmas -/

theorem runConsume_rpError (st : RP) : (runConsume st).rpError = st.rpError := by
  unfold runConsume
  repeat' split
  all_goals rfl

theorem runThen_rpError (st : RP) : (runThen st).rpError = st.rpError := by
  unfold runThen
  repeat' split
  all_goals rfl

theorem flush_rpError (st : RP) : (flush st).rpError = st.rpError := by
  unfold flush
  rw [runThen_rpError, runConsume_rpError]

theorem runThen_buffer (st : RP) : (runThen st).buffer = st.buffer := by
  unfold runThen
  repeat' split
  all_goals rfl

theorem runConsume_finished (st : RP) : (runConsume st).finished = st.finished := by
  unfold runConsume
  repeat' split
  all_goals rfl

theorem runThen_finished (st : RP) : (runThen st).finished = st.finished := by
  unfold runThen
  repeat' split
  all_goals rfl

theorem flush_finished (st : RP) : (flush st).finished = st.finished := by
  unfold flush
  rw [runThen_finished, runConsume_finished]

/-- `runThen` either leaves the log unchanged or appends exactly one
`then` firing carrying the stored error. -/
theorem runThen_out (st : RP) : (runThen st).out = st.out ∨
    (runThen st).out = st.out ++ [ROut.thenOut st.rpError] := by
  unfold runThen
  repeat' split
  all_goals simp

/-! ## C10: `first`/`scalar` on the JS lineage -/

theorem flush_zero_rows (st : RP) (hb : st.buffer = some [] ∨ st.buffer = none)
    (he : st.rpError = none) :
    ((flush st).buffer = some [] ∨ (flush st).buffer = none) ∧
    (∀ o ∈ (flush st).out, o ∈ st.out ∨ isFirstish o = false) := by
  have hrc : ((runConsume st).buffer = some [] ∨ (runConsume st).buffer = none) ∧
      (∀ o ∈ (runConsume st).out, o ∈ st.out ∨ isFirstish o = false) := by
    unfold runConsume
    rcases hm : st.mode with _ | m
    · exact ⟨hb, fun o ho => Or.inl ho⟩
    · cases m <;> rcases hb with hb | hb <;>
        simp [hb, he, eachLoop, isFirstish] <;> repeat' split
      all_goals try simp [isFirstish]
      all_goals
        first
          | tauto
          | (intro o ho
             rcases ho with ho | ho
             · exact Or.inl ho
             · subst ho
               exact Or.inr rfl)
  have hfb : (flush st).buffer = (runConsume st).buffer := by
    unfold flush
    rw [runThen_buffer]
  refine ⟨by rw [hfb]; exact hrc.1, ?_⟩
  intro o ho
  have hfo : (flush st).out = (runThen (runConsume st)).out := rfl
  rcases runThen_out (runConsume st) with h | h
  · rw [hfo, h] at ho
    exact hrc.2 o ho
  · rw [hfo, h] at ho
    rcases List.mem_append.mp ho with h1 | h1
    · exact hrc.2 o h1
    · simp at h1
      subst h1
      exact Or.inr rfl

/-- Attaching a consumption mode either throws (state unchanged) or stores
the mode and flushes. -/
theorem attachMode_cases (st : RP) (m : Mode) :
    ((consume m st).map flush).toOption.getD st = st ∨
    (st.mode = none ∧
      ((consume m st).map flush).toOption.getD st = flush { st with mode := some m }) := by
  rcases hm : st.mode with _ | m'
  · right
    exact ⟨rfl, by simp [consume, hm, Except.map, Except.toOption]⟩
  · left
    simp [consume, hm, Except.map, Except.toOption]

/-- Attaching `then` either throws (state unchanged) or stores the handler
and flushes. -/
theorem attachThen_cases (st : RP) :
    ((attachThen st).toOption).getD st = st ∨
    ((attachThen st).toOption).getD st = flush { st with thenSet := true } := by
  cases ht : st.thenSet
  · right
    simp [attachThen, ht, Except.toOption]
  · left
    simp [attachThen, ht, Except.toOption]

/-- A step that is neither a row arrival nor an error signal preserves:
empty-or-discarded buffer, no stored error, and no `first`/`scalar`
callback invocation on record. -/
theorem step_zero_rows (st : RP) (a : RAct) (har : isRowAct a = false)
    (hae : isErrAct a = false)
    (hb : st.buffer = some [] ∨ st.buffer = none) (he : st.rpError = none)
    (ho : ∀ o ∈ st.out, isFirstish o = false) :
    ((stepRP st a).buffer = some [] ∨ (stepRP st a).buffer = none) ∧
    (stepRP st a).rpError = none ∧
    (∀ o ∈ (stepRP st a).out, isFirstish o = false) := by
  have key : ∀ t : RP, t.buffer = st.buffer → t.rpError = none → t.out = st.out →
      ((flush t).buffer = some [] ∨ (flush t).buffer = none) ∧
      (flush t).rpError = none ∧ (∀ o ∈ (flush t).out, isFirstish o = false) := by
    intro t htb hte hto
    have h1 := flush_zero_rows t (by rw [htb]; exact hb) hte
    refine ⟨h1.1, by rw [flush_rpError]; exact hte, ?_⟩
    intro o hmem
    rcases h1.2 o hmem with h | h
    · exact ho o (hto ▸ h)
    · exact h
  have keep : ((st.buffer = some [] ∨ st.buffer = none) ∧ st.rpError = none ∧
      (∀ o ∈ st.out, isFirstish o = false)) := ⟨hb, he, ho⟩
  cases a with
  | row r => simp [isRowAct] at har
  | errEv e => simp [isErrAct] at hae
  | endEv => exact key { st with finished := true } rfl he rfl
  | all =>
    rcases attachMode_cases st Mode.all with h | ⟨-, h⟩
    · rw [show stepRP st RAct.all =
        ((consume Mode.all st).map flush).toOption.getD st from rfl, h]
      exact keep
    · rw [show stepRP st RAct.all =
        ((consume Mode.all st).map flush).toOption.getD st from rfl, h]
      exact key _ rfl he rfl
  | each =>
    rcases attachMode_cases st Mode.each with h | ⟨-, h⟩
    · rw [show stepRP st RAct.each =
        ((consume Mode.each st).map flush).toOption.getD st from rfl, h]
      exact keep
    · rw [show stepRP st RAct.each =
        ((consume Mode.each st).map flush).toOption.getD st from rfl, h]
      exact key _ rfl he rfl
  | first =>
    rcases attachMode_cases st Mode.first with h | ⟨-, h⟩
    · rw [show stepRP st RAct.first =
        ((consume Mode.first st).map flush).toOption.getD st from rfl, h]
      exact keep
    · rw [show stepRP st RAct.first =
        ((consume Mode.first st).map flush).toOption.getD st from rfl, h]
      exact key _ rfl he rfl
  | scalar =>
    rcases attachMode_cases st Mode.scalar with h | ⟨-, h⟩
    · rw [show stepRP st RAct.scalar =
        ((consume Mode.scalar st).map flush).toOption.getD st from rfl, h]
      exact keep
    · rw [show stepRP st RAct.scalar =
        ((consume Mode.scalar st).map flush).toOption.getD st from rfl, h]
      exact key _ rfl he rfl
  | thenA =>
    rcases attachThen_cases st with h | h
    · rw [show stepRP st RAct.thenA = ((attachThen st).toOption).getD st from rfl, h]
      exact keep
    · rw [show stepRP st RAct.thenA = ((attachThen st).toOption).getD st from rfl, h]
      exact key _ rfl he rfl

/-- Every output of the JS `each` loop is a row delivery. -/
theorem eachLoop_rowOut : ∀ (buf : List Row) (i idx : Nat),
    ∀ x ∈ (eachLoop i buf idx).1, isRowOut x = true := by
  intro buf
  induction buf with
  | nil =>
    intro i idx x hx
    simp [eachLoop] at hx
  | cons r rest ih =>
    intro i idx x hx
    simp only [eachLoop] at hx
    split at hx
    · rcases List.mem_cons.mp hx with h | h
      · subst h
        rfl
      · exact ih (i + 1) (idx + 1) x h
    · simp at hx

/-- The scalar wrapper never records a null-row `first` delivery. -/
theorem scalarEmit_no_first (x : Option Row) :
    ROut.firstOut none ∉ scalarEmit x := by
  unfold scalarEmit
  repeat' split
  all_goals simp

/-- While no error is stored, a flush can never invoke `first`'s callback
with the explicit null row. -/
theorem flush_no_null_first (st : RP) (he : st.rpError = none)
    (hn : ROut.firstOut none ∉ st.out) :
    ROut.firstOut none ∉ (flush st).out := by
  have hrc : ROut.firstOut none ∉ (runConsume st).out := by
    unfold runConsume
    rcases hm : st.mode with _ | m
    · exact hn
    · cases m <;> rcases hb : st.buffer with _ | ⟨_ | ⟨r, buf⟩⟩ <;>
        simp only [hb] <;> repeat' split
      all_goals try exact hn
      all_goals
        first
          | (have hcontra : st.finished = true ∧ st.rpError ≠ none := by assumption
             exact absurd he hcontra.2)
          | (intro hmem
             rcases List.mem_append.mp hmem with hmem | hmem
             · exact hn hmem
             · first
                 | exact absurd (eachLoop_rowOut _ _ _ _ hmem) (by simp [isRowOut])
                 | exact scalarEmit_no_first _ hmem
                 | simp at hmem)
  have hfo : (flush st).out = (runThen (runConsume st)).out := rfl
  rcases runThen_out (runConsume st) with h | h
  · rw [hfo, h]
    exact hrc
  · rw [hfo, h]
    intro hmem
    rcases List.mem_append.mp hmem with h1 | h1
    · exact hrc h1
    · simp at h1

/-- A step without an error signal preserves: no stored error and no
null-row `first` callback on record. -/
theorem step_no_null_first (st : RP) (a : RAct) (hae : isErrAct a = false)
    (he : st.rpError = none) (hn : ROut.firstOut none ∉ st.out) :
    (stepRP st a).rpError = none ∧ ROut.firstOut none ∉ (stepRP st a).out := by
  have key : ∀ t : RP, t.rpError = none → t.out = st.out →
      (flush t).rpError = none ∧ ROut.firstOut none ∉ (flush t).out := by
    intro t hte hto
    exact ⟨by rw [flush_rpError]; exact hte,
      flush_no_null_first t hte (hto ▸ hn)⟩
  cases a with
  | errEv e => simp [isErrAct] at hae
  | row r =>
    rcases hb : st.buffer with _ | buf
    · rw [show stepRP st (RAct.row r) = onRow r st from rfl]
      unfold onRow
      rw [hb]
      exact ⟨he, hn⟩
    · rw [show stepRP st (RAct.row r) = onRow r st from rfl]
      unfold onRow
      rw [hb]
      exact key _ he rfl
  | endEv => exact key { st with finished := true } he rfl
  | all =>
    rcases attachMode_cases st Mode.all with h | ⟨-, h⟩ <;>
      rw [show stepRP st RAct.all =
        ((consume Mode.all st).map flush).toOption.getD st from rfl, h]
    · exact ⟨he, hn⟩
    · exact key _ he rfl
  | each =>
    rcases attachMode_cases st Mode.each with h | ⟨-, h⟩ <;>
      rw [show stepRP st RAct.each =
        ((consume Mode.each st).map flush).toOption.getD st from rfl, h]
    · exact ⟨he, hn⟩
    · exact key _ he rfl
  | first =>
    rcases attachMode_cases st Mode.first with h | ⟨-, h⟩ <;>
      rw [show stepRP st RAct.first =
        ((consume Mode.first st).map flush).toOption.getD st from rfl, h]
    · exact ⟨he, hn⟩
    · exact key _ he rfl
  | scalar =>
    rcases attachMode_cases st Mode.scalar with h | ⟨-, h⟩ <;>
      rw [show stepRP st RAct.scalar =
        ((consume Mode.scalar st).map flush).toOption.getD st from rfl, h]
    · exact ⟨he, hn⟩
    · exact key _ he rfl
  | thenA =>
    rcases attachThen_cases st with h | h <;>
      rw [show stepRP st RAct.thenA = ((attachThen st).toOption).getD st from rfl, h]
    · exact ⟨he, hn⟩
    · exact key _ he rfl

/-- C10: if a statement produces zero rows and never signals an error,
`first` — and hence `scalar` — never invokes its callback at all; and the
explicit `cb(null)` invocation of `first` can only ever happen after an
error was signaled for the statement. -/
theorem C10_first_zero_rows :
    (∀ acts : List RAct, (∀ a ∈ acts, isRowAct a = false) →
      (∀ a ∈ acts, isErrAct a = false) →
      ∀ o ∈ (runRP acts).out, isFirstish o = false) ∧
    (∀ acts : List RAct, (∀ a ∈ acts, isErrAct a = false) →
      ROut.firstOut none ∉ (runRP acts).out) := by
  constructor
  · have main : ∀ (acts : List RAct) (st : RP),
        (∀ a ∈ acts, isRowAct a = false) → (∀ a ∈ acts, isErrAct a = false) →
        (st.buffer = some [] ∨ st.buffer = none) → st.rpError = none →
        (∀ o ∈ st.out, isFirstish o = false) →
        ∀ o ∈ (acts.foldl stepRP st).out, isFirstish o = false := by
      intro acts
      induction acts with
      | nil => exact fun st _ _ _ _ ho => ho
      | cons a rest ih =>
        intro st har hae hb he ho
        have h := step_zero_rows st a (har a (by simp)) (hae a (by simp)) hb he ho
        exact ih (stepRP st a) (fun x hx => har x (by simp [hx]))
          (fun x hx => hae x (by simp [hx])) h.1 h.2.1 h.2.2
    intro acts har hae
    exact main acts RP.init har hae (Or.inl rfl) rfl (by simp [RP.init])
  · have main : ∀ (acts : List RAct) (st : RP),
        (∀ a ∈ acts, isErrAct a = false) → st.rpError = none →
        ROut.firstOut none ∉ st.out →
        ROut.firstOut none ∉ (acts.foldl stepRP st).out := by
      intro acts
      induction acts with
      | nil => exact fun st _ _ hn => hn
      | cons a rest ih =>
        intro st hae he hn
        have h := step_no_null_first st a (hae a (by simp)) he hn
        exact ih (stepRP st a) (fun x hx => hae x (by simp [hx])) h.1 h.2
    intro acts hae
    exact main acts RP.init hae rfl (by simp [RP.init])

/-- Witness for C10 at concrete interaction sequences. -/
theorem C10_first_zero_rows_witness :
    (∀ o ∈ (runRP [RAct.first, RAct.endEv]).out, isFirstish o = false) ∧
    ROut.firstOut none ∉ (runRP [RAct.scalar, RAct.endEv, RAct.thenA]).out :=
  ⟨C10_first_zero_rows.1 [RAct.first, RAct.endEv] (by decide) (by decide),
   C10_first_zero_rows.2 [RAct.scalar, RAct.endEv, RAct.thenA] (by decide)⟩

/-! ## C5 (amended): the Coffee-lineage `each` cursor -/

theorem runConsumeC_mode (st : RP) : (runConsumeC st).mode = st.mode := by
  unfold runConsumeC
  repeat' split
  all_goals rfl

theorem runConsumeC_rpError (st : RP) : (runConsumeC st).rpError = st.rpError := by
  unfold runConsumeC
  repeat' split
  all_goals rfl

theorem runThen_rowIdx (st : RP) : (runThen st).rowIdx = st.rowIdx := by
  unfold runThen
  repeat' split
  all_goals rfl

theorem flushCo_rpError (st : RP) : (flushCo st).rpError = st.rpError := by
  unfold flushCo
  rw [runThen_rpError]
  split
  · rw [runConsumeC_rpError]
  · rfl

theorem flushCo_mode (st : RP) : (flushCo st).mode = st.mode := by
  unfold flushCo
  rw [runThen_mode]
  split
  · rw [runConsumeC_mode]
  · rfl

theorem deliveredRows_append (l₁ l₂ : List ROut) :
    deliveredRows (l₁ ++ l₂) = deliveredRows l₁ ++ deliveredRows l₂ := by
  simp [deliveredRows]

/-- `runThen` never records a row delivery. -/
theorem runThen_delivered (st : RP) :
    deliveredRows (runThen st).out = deliveredRows st.out := by
  rcases runThen_out st with h | h <;> rw [h]
  rw [deliveredRows_append]
  simp [deliveredRows, isRowOut]

/-- The Coffee `each` drain emits exactly the full in-order delivery of the
buffer and advances the running index past it. -/
theorem eachLoopC_eq (buf : List Row) : ∀ idx : Nat,
    (eachLoopC buf idx).1 = fullDelivery buf idx ∧
    (eachLoopC buf idx).2 = idx + buf.length := by
  induction buf with
  | nil => intro idx; simp [eachLoopC, fullDelivery]
  | cons r rest ih =>
    intro idx
    have h := ih (idx + 1)
    simp [eachLoopC, fullDelivery, h.1, h.2]
    omega

theorem fullDelivery_append (A B : List Row) : ∀ i : Nat,
    fullDelivery (A ++ B) i = fullDelivery A i ++ fullDelivery B (i + A.length) := by
  induction A with
  | nil => intro i; simp [fullDelivery]
  | cons r rest ih =>
    intro i
    simp [fullDelivery, ih (i + 1)]
    have : i + 1 + rest.length = i + (rest.length + 1) := by omega
    rw [this]

theorem fullDelivery_length (A : List Row) : ∀ i : Nat,
    (fullDelivery A i).length = A.length := by
  induction A with
  | nil => intro i; rfl
  | cons r rest ih => intro i; simp [fullDelivery, ih (i + 1)]

theorem fullDelivery_rowOut (A : List Row) : ∀ i : Nat,
    ∀ x ∈ fullDelivery A i, isRowOut x = true := by
  induction A with
  | nil => intro i x hx; simp [fullDelivery] at hx
  | cons r rest ih =>
    intro i x hx
    rcases List.mem_cons.mp hx with h | h
    · subst h; rfl
    · exact ih (i + 1) x h

theorem deliveredRows_fullDelivery (A : List Row) (i : Nat) :
    deliveredRows (fullDelivery A i) = fullDelivery A i :=
  List.filter_eq_self.mpr (fullDelivery_rowOut A i)

/-- The scalar wrapper never records a row delivery. -/
theorem deliveredRows_scalarEmit (x : Option Row) :
    deliveredRows (scalarEmit x) = [] := by
  unfold scalarEmit
  repeat' split
  all_goals rfl

/-- With an error stored, the Coffee `_flush` skips the consumer and can
only fire the `then` handler: no row is delivered and the cursor state is
otherwise untouched. -/
theorem flushCo_err (st : RP) (he : st.rpError ≠ none) :
    deliveredRows (flushCo st).out = deliveredRows st.out ∧
    (flushCo st).buffer = st.buffer ∧ (flushCo st).rowIdx = st.rowIdx := by
  unfold flushCo
  rw [if_neg he]
  exact ⟨runThen_delivered st, runThen_buffer st, runThen_rowIdx st⟩

/-- Coffee `_flush` on an error-free `each` cursor drains the whole buffer
in order. -/
theorem flushCo_each (st : RP) (hm : st.mode = some Mode.each)
    (he : st.rpError = none) (buf : List Row) (hb : st.buffer = some buf) :
    (flushCo st).buffer = some [] ∧
    (flushCo st).rowIdx = st.rowIdx + buf.length ∧
    deliveredRows (flushCo st).out =
      deliveredRows st.out ++ fullDelivery buf st.rowIdx := by
  unfold flushCo
  rw [if_pos he]
  have hc : runConsumeC st = { st with
      buffer := some []
      rowIdx := (eachLoopC buf st.rowIdx).2
      out := st.out ++ (eachLoopC buf st.rowIdx).1 } := by
    unfold runConsumeC
    rw [hm, hb]
  rw [hc, runThen_rowIdx, runThen_buffer, runThen_delivered]
  refine ⟨rfl, ?_, ?_⟩
  · exact (eachLoopC_eq buf st.rowIdx).2
  · show deliveredRows (st.out ++ (eachLoopC buf st.rowIdx).1) = _
    rw [deliveredRows_append, (eachLoopC_eq buf st.rowIdx).1,
      deliveredRows_fullDelivery]

/-- Coffee `_flush` with no consumer attached leaves buffer, index and the
row-delivery record unchanged. -/
theorem flushCo_none (st : RP) (hm : st.mode = none) :
    (flushCo st).buffer = st.buffer ∧ (flushCo st).rowIdx = st.rowIdx ∧
    deliveredRows (flushCo st).out = deliveredRows st.out := by
  unfold flushCo
  split
  · have hc : runConsumeC st = st := by
      unfold runConsumeC
      rw [hm]
    rw [hc]
    exact ⟨runThen_buffer st, runThen_rowIdx st, runThen_delivered st⟩
  · exact ⟨runThen_buffer st, runThen_rowIdx st, runThen_delivered st⟩

theorem deliveredRows_allOut (l : List Row) :
    deliveredRows [ROut.allOut l] = [] := rfl

theorem deliveredRows_firstOut (x : Option Row) :
    deliveredRows [ROut.firstOut x] = [] := rfl

/-- The non-`each` consumers never deliver rows and never move the running
index. -/
theorem runConsumeC_not_each (st : RP) (m : Mode) (hm : st.mode = some m)
    (hne : m ≠ Mode.each) :
    deliveredRows (runConsumeC st).out = deliveredRows st.out ∧
    (runConsumeC st).rowIdx = st.rowIdx := by
  cases m
  case each => exact absurd rfl hne
  all_goals
    unfold runConsumeC
    rw [hm]
    repeat' split
    all_goals
      first
        | exact ⟨rfl, rfl⟩
        | simp_all [deliveredRows_append, deliveredRows_scalarEmit,
            deliveredRows_allOut, deliveredRows_firstOut]

/-- Coffee `_flush` on a non-`each` cursor never delivers rows and keeps
the running index. -/
theorem flushCo_not_each (st : RP) (m : Mode) (hm : st.mode = some m)
    (hne : m ≠ Mode.each) :
    deliveredRows (flushCo st).out = deliveredRows st.out ∧
    (flushCo st).rowIdx = st.rowIdx := by
  unfold flushCo
  split
  · have h := runConsumeC_not_each st m hm hne
    rw [runThen_delivered, runThen_rowIdx]
    exact h
  · rw [runThen_delivered, runThen_rowIdx]
    exact ⟨rfl, rfl⟩

/-- Invariant of the Coffee-lineage cursor: relative to the rows `A` that
have arrived so far, the recorded `each` deliveries are an initial segment
of the full in-order delivery; an error-free attached `each` cursor has
drained everything; an unconsumed cursor has everything buffered. -/
def InvE (st : RP) (A : List Row) : Prop :=
  (st.mode ≠ some Mode.each → deliveredRows st.out = []) ∧
  (st.rowIdx = (deliveredRows st.out).length ∧
    deliveredRows st.out = (fullDelivery A 0).take st.rowIdx) ∧
  (st.mode = some Mode.each → st.rpError = none →
    st.buffer = some [] ∧ st.rowIdx = A.length) ∧
  (st.mode = none → st.buffer = some A ∧ st.rowIdx = 0)

theorem InvE_rowIdx_le {st : RP} {A : List Row} (h : InvE st A) :
    st.rowIdx ≤ A.length := by
  obtain ⟨-, ⟨h2a, h2b⟩, -, -⟩ := h
  have := congrArg List.length h2b
  rw [← h2a, List.length_take, fullDelivery_length] at this
  omega

theorem take_fullDelivery_extend {A B : List Row} {k : Nat}
    (hk : k ≤ A.length) :
    (fullDelivery (A ++ B) 0).take k = (fullDelivery A 0).take k := by
  rw [fullDelivery_append]
  exact List.take_append_of_le_length (by rw [fullDelivery_length]; exact hk)

/-- Carrying `InvE` across a step that changes none of the observable
cursor core. -/
theorem InvE_congr {st st' : RP} {A : List Row} (h : InvE st A)
    (hm : st'.mode = st.mode) (he : st'.rpError = st.rpError)
    (hb : st'.buffer = st.buffer) (hr : st'.rowIdx = st.rowIdx)
    (hd : deliveredRows st'.out = deliveredRows st.out) : InvE st' A := by
  obtain ⟨h1, ⟨h2a, h2b⟩, h3, h4⟩ := h
  refine ⟨?_, ⟨?_, ?_⟩, ?_, ?_⟩
  · intro hx
    rw [hd]
    exact h1 (hm ▸ hx)
  · rw [hr, hd]
    exact h2a
  · rw [hr, hd]
    exact h2b
  · intro hx hy
    rw [hb, hr]
    exact h3 (hm ▸ hx) (he ▸ hy)
  · intro hx
    rw [hb, hr]
    exact h4 (hm ▸ hx)

/-- Carrying `InvE` across a step in which one more row arrives but nothing
is delivered (ignored, still-buffered, or error-suppressed row). -/
theorem InvE_extendRow {st st' : RP} {A : List Row} {r : Row} (h : InvE st A)
    (hm : st'.mode = st.mode) (he : st'.rpError = st.rpError)
    (hr : st'.rowIdx = st.rowIdx)
    (hd : deliveredRows st'.out = deliveredRows st.out)
    (h3' : st'.mode = some Mode.each → st'.rpError = none → False)
    (h4' : st'.mode = none → st'.buffer = some (A ++ [r]) ∧ st'.rowIdx = 0) :
    InvE st' (A ++ [r]) := by
  obtain ⟨h1, ⟨h2a, h2b⟩, h3, h4⟩ := h
  refine ⟨?_, ⟨?_, ?_⟩, ?_, ?_⟩
  · intro hx
    rw [hd]
    exact h1 (hm ▸ hx)
  · rw [hr, hd]
    exact h2a
  · rw [hr, hd, h2b]
    rw [take_fullDelivery_extend (InvE_rowIdx_le ⟨h1, ⟨h2a, h2b⟩, h3, h4⟩)]
  · intro hx hy
    exact absurd (h3' hx hy) not_false
  · exact h4'

theorem attachModeC_cases (st : RP) (m : Mode) :
    (((consume m st).map flushCo).toOption.getD st = st) ∨
    (st.mode = none ∧
      ((consume m st).map flushCo).toOption.getD st = flushCo { st with mode := some m }) := by
  rcases hm : st.mode with _ | m'
  · right
    exact ⟨rfl, by simp [consume, hm, Except.map, Except.toOption]⟩
  · left
    simp [consume, hm, Except.map, Except.toOption]

theorem attachThenC_cases (st : RP) :
    ((attachThenC st).toOption).getD st = st ∨
    ((attachThenC st).toOption).getD st = flushCo { st with thenSet := true } := by
  cases ht : st.thenSet
  · right
    simp [attachThenC, ht, Except.toOption]
  · left
    simp [attachThenC, ht, Except.toOption]

/-- Taking one element past `A` out of the full delivery of `A ++ [r]`
yields the full delivery of `A` followed by the delivery of `r`. -/
theorem take_full_snoc (A : List Row) (r : Row) :
    (fullDelivery (A ++ [r]) 0).take (A.length + 1) =
      fullDelivery A 0 ++ [ROut.rowOut r A.length] := by
  rw [fullDelivery_append]
  have h1 : fullDelivery [r] (0 + A.length) = [ROut.rowOut r A.length] := by
    simp [fullDelivery]
  rw [h1]
  have h2 : A.length + 1 = (fullDelivery A 0 ++ [ROut.rowOut r A.length]).length := by
    simp [fullDelivery_length]
  rw [h2, List.take_length]

/-- A fully drained error-free cursor has delivered exactly the full
in-order sequence. -/
theorem InvE_drained {st : RP} {A : List Row} (h2b : deliveredRows st.out =
    (fullDelivery A 0).take st.rowIdx) (hidx : st.rowIdx = A.length) :
    deliveredRows st.out = fullDelivery A 0 := by
  rw [h2b, hidx, ← fullDelivery_length A 0, List.take_length]

/-- Attaching any consumption mode to a Coffee cursor preserves the
invariant. -/
theorem stepInvE_attach (st : RP) (A : List Row) (h : InvE st A) (m : Mode) :
    InvE (((consume m st).map flushCo).toOption.getD st) A := by
  rcases attachModeC_cases st m with hcase | ⟨hmode, hcase⟩
  · rw [hcase]
    exact h
  · rw [hcase]
    obtain ⟨h1, ⟨h2a, h2b⟩, h3, h4⟩ := h
    obtain ⟨hbuf, hidx⟩ := h4 hmode
    have hdel : deliveredRows st.out = [] := h1 (by rw [hmode]; simp)
    by_cases hm' : m = Mode.each
    · subst hm'
      by_cases herr : st.rpError = none
      · -- error-free: the whole buffer is drained on attach
        have hfe := flushCo_each { st with mode := some Mode.each } rfl herr A
          (by show st.buffer = some A; exact hbuf)
        refine ⟨?_, ⟨?_, ?_⟩, ?_, ?_⟩
        · intro hx
          rw [flushCo_mode] at hx
          simp at hx
        · rw [hfe.2.1, hfe.2.2, hdel, hidx]
          simp [fullDelivery_length]
        · rw [hfe.2.1, hfe.2.2, hdel, hidx]
          simp
          exact le_of_eq (fullDelivery_length A 0)
        · intro _ _
          rw [hfe.1, hfe.2.1, hidx]
          simp
        · intro hx
          rw [flushCo_mode] at hx
          simp at hx
      · -- paused: the consumer is suppressed, nothing is delivered
        have hfe := flushCo_err { st with mode := some Mode.each }
          (by show st.rpError ≠ none; exact herr)
        refine ⟨?_, ⟨?_, ?_⟩, ?_, ?_⟩
        · intro hx
          rw [hfe.1]
          exact hdel
        · rw [hfe.1, hfe.2.2, hdel, hidx]
          rfl
        · rw [hfe.1, hfe.2.2, hdel, hidx]
          rfl
        · intro _ hy
          rw [flushCo_rpError] at hy
          exact absurd hy herr
        · intro hx
          rw [flushCo_mode] at hx
          simp at hx
    · -- non-each mode: nothing is ever delivered
      have hfe := flushCo_not_each { st with mode := some m } m rfl hm'
      refine ⟨?_, ⟨?_, ?_⟩, ?_, ?_⟩
      · intro _
        rw [hfe.1]
        exact hdel
      · rw [hfe.1, hfe.2, hdel, hidx]
        rfl
      · rw [hfe.1, hfe.2, hdel, hidx]
        rfl
      · intro hx
        rw [flushCo_mode] at hx
        simp at hx
        exact absurd hx hm'
      · intro hx
        rw [flushCo_mode] at hx
        simp at hx

/-- Flushing a Coffee cursor whose observable core (mode, error, buffer,
index, deliveries) is that of an invariant-satisfying state preserves the
invariant with the same arrived rows. -/
theorem InvE_flushCo_core (st t : RP) (A : List Row) (hinv : InvE st A)
    (hm : t.mode = st.mode) (he : t.rpError = st.rpError)
    (hb : t.buffer = st.buffer) (hr : t.rowIdx = st.rowIdx)
    (hd : deliveredRows t.out = deliveredRows st.out) :
    InvE (flushCo t) A := by
  obtain ⟨h1, ⟨h2a, h2b⟩, h3, h4⟩ := hinv
  rcases hmode : st.mode with _ | m
  · have hfe := flushCo_none t (by rw [hm, hmode])
    exact InvE_congr ⟨h1, ⟨h2a, h2b⟩, h3, h4⟩ (by rw [flushCo_mode, hm])
      (by rw [flushCo_rpError, he]) (by rw [hfe.1, hb]) (by rw [hfe.2.1, hr])
      (by rw [hfe.2.2, hd])
  · rcases herr : st.rpError with _ | e
    · by_cases hm' : m = Mode.each
      · subst hm'
        obtain ⟨hb3, -⟩ := h3 hmode herr
        have hfe := flushCo_each t (by rw [hm, hmode]) (by rw [he, herr]) []
          (by rw [hb, hb3])
        exact InvE_congr ⟨h1, ⟨h2a, h2b⟩, h3, h4⟩ (by rw [flushCo_mode, hm])
          (by rw [flushCo_rpError, he]) (by rw [hfe.1, hb3])
          (by rw [hfe.2.1, hr]; simp)
          (by rw [hfe.2.2, hd]; simp [fullDelivery])
      · have hfe := flushCo_not_each t m (by rw [hm, hmode]) hm'
        refine ⟨?_, ⟨?_, ?_⟩, ?_, ?_⟩
        · intro _
          rw [hfe.1, hd]
          exact h1 (by rw [hmode]; simp [hm'])
        · rw [hfe.1, hfe.2, hd, hr]
          exact h2a
        · rw [hfe.1, hfe.2, hd, hr]
          exact h2b
        · intro hx _
          rw [flushCo_mode, hm, hmode] at hx
          simp at hx
          exact absurd hx hm'
        · intro hx
          rw [flushCo_mode, hm, hmode] at hx
          cases hx
    · have hfe := flushCo_err t (by rw [he, herr]; simp)
      refine ⟨?_, ⟨?_, ?_⟩, ?_, ?_⟩
      · intro hx
        rw [flushCo_mode, hm] at hx
        rw [hfe.1, hd]
        exact h1 hx
      · rw [hfe.1, hfe.2.2, hd, hr]
        exact h2a
      · rw [hfe.1, hfe.2.2, hd, hr]
        exact h2b
      · intro _ hy
        rw [flushCo_rpError, he, herr] at hy
        cases hy
      · intro hx
        rw [flushCo_mode, hm, hmode] at hx
        cases hx

/-- One Coffee-cursor step preserves the invariant, with one more arrived
row recorded on a row event. -/
theorem stepInvE (st : RP) (A : List Row) (a : RAct) (h : InvE st A) :
    InvE (stepRPC st a)
      (A ++ (match a with | RAct.row r => [r] | _ => [])) := by
  obtain ⟨h1, ⟨h2a, h2b⟩, h3, h4⟩ := h
  have hinv : InvE st A := ⟨h1, ⟨h2a, h2b⟩, h3, h4⟩
  cases a with
  | row r =>
    show InvE (onRowC r st) (A ++ [r])
    rcases hb : st.buffer with _ | buf
    · -- dropped row: cursor unchanged
      have hs : onRowC r st = st := by
        unfold onRowC
        rw [hb]
      rw [hs]
      refine InvE_extendRow hinv rfl rfl rfl rfl ?_ ?_
      · intro hx hy
        obtain ⟨hb3, -⟩ := h3 hx hy
        rw [hb] at hb3
        cases hb3
      · intro hx
        obtain ⟨hb4, -⟩ := h4 hx
        rw [hb] at hb4
        cases hb4
    · have hs : onRowC r st = flushCo { st with buffer := some (buf ++ [r]) } := by
        unfold onRowC
        rw [hb]
      rw [hs]
      by_cases hmode : st.mode = none
      · -- no consumer yet: the row is buffered, nothing delivered
        have hfe := flushCo_none { st with buffer := some (buf ++ [r]) }
          (by show st.mode = none; exact hmode)
        obtain ⟨hbA, hi0⟩ := h4 hmode
        have hbuf : buf = A := by
          rw [hb] at hbA
          exact Option.some_inj.mp hbA
        refine InvE_extendRow hinv (by rw [flushCo_mode])
          (by rw [flushCo_rpError]) (by rw [hfe.2.1]) (by rw [hfe.2.2]) ?_ ?_
        · intro hx _
          rw [flushCo_mode] at hx
          have hx' : st.mode = some Mode.each := hx
          rw [hmode] at hx'
          cases hx'
        · intro _
          rw [hfe.1, hfe.2.1]
          refine ⟨?_, hi0⟩
          show some (buf ++ [r]) = some (A ++ [r])
          rw [hbuf]
      · by_cases herr : st.rpError = none
        · by_cases hm' : st.mode = some Mode.each
          · -- attached error-free each: the new row is delivered at once
            obtain ⟨hb3, hidx⟩ := h3 hm' herr
            have hbuf : buf = [] := by
              rw [hb] at hb3
              exact Option.some_inj.mp hb3
            subst hbuf
            have hfe := flushCo_each { st with buffer := some ([] ++ [r]) }
              (by show st.mode = some Mode.each; exact hm')
              (by show st.rpError = none; exact herr) ([] ++ [r]) rfl
            have hfull : deliveredRows st.out = fullDelivery A 0 :=
              InvE_drained h2b hidx
            refine ⟨?_, ⟨?_, ?_⟩, ?_, ?_⟩
            · intro hx
              rw [flushCo_mode] at hx
              have hx' : ¬st.mode = some Mode.each := hx
              exact absurd hm' hx'
            · rw [hfe.2.1, hfe.2.2, hfull]
              show st.rowIdx + ([] ++ [r] : List Row).length = _
              simp [fullDelivery_length, hidx]
            · rw [hfe.2.1, hfe.2.2, hfull]
              show _ = (fullDelivery (A ++ [r]) 0).take
                (st.rowIdx + ([] ++ [r] : List Row).length)
              rw [hidx]
              show _ = (fullDelivery (A ++ [r]) 0).take (A.length + 1)
              rw [take_full_snoc]
              simp [fullDelivery, hidx]
            · intro _ _
              rw [hfe.1, hfe.2.1, hidx]
              simp
            · intro hx
              rw [flushCo_mode] at hx
              have hx' : st.mode = none := hx
              exact absurd hx' hmode
          · -- other consumer: row is buffered, never delivered by it
            obtain ⟨m, hmm⟩ := Option.ne_none_iff_exists'.mp hmode
            have hmne : m ≠ Mode.each := by
              intro h
              rw [h] at hmm
              exact hm' hmm
            have hfe := flushCo_not_each { st with buffer := some (buf ++ [r]) }
              m (by show st.mode = some m; exact hmm) hmne
            refine InvE_extendRow hinv (by rw [flushCo_mode])
              (by rw [flushCo_rpError]) (by rw [hfe.2]) (by rw [hfe.1]) ?_ ?_
            · intro hx _
              rw [flushCo_mode] at hx
              exact hm' hx
            · intro hx
              rw [flushCo_mode] at hx
              exact absurd hx hmode
        · -- paused cursor: flush suppressed, row only buffered
          have hfe := flushCo_err { st with buffer := some (buf ++ [r]) }
            (by show st.rpError ≠ none; exact herr)
          refine InvE_extendRow hinv (by rw [flushCo_mode])
            (by rw [flushCo_rpError]) (by rw [hfe.2.2]) (by rw [hfe.1]) ?_ ?_
          · intro _ hy
            rw [flushCo_rpError] at hy
            exact herr hy
          · intro hx
            rw [flushCo_mode] at hx
            exact absurd hx hmode
  | endEv =>
    show InvE (flushCo { st with finished := true }) (A ++ [])
    rw [List.append_nil]
    exact InvE_flushCo_core st _ A hinv rfl rfl rfl rfl rfl
  | errEv e =>
    show InvE (flushCo { st with rpError := some e, finished := true }) (A ++ [])
    rw [List.append_nil]
    have hfe := flushCo_err { st with rpError := some e, finished := true }
      (by simp)
    refine ⟨?_, ⟨?_, ?_⟩, ?_, ?_⟩
    · intro hx
      rw [flushCo_mode] at hx
      rw [hfe.1]
      exact h1 hx
    · rw [hfe.1, hfe.2.2]
      exact h2a
    · rw [hfe.1, hfe.2.2]
      exact h2b
    · intro _ hy
      rw [flushCo_rpError] at hy
      cases hy
    · intro hx
      rw [flushCo_mode] at hx
      obtain ⟨hb4, hi4⟩ := h4 hx
      rw [hfe.2.1, hfe.2.2]
      exact ⟨hb4, hi4⟩
  | all =>
    show InvE (((consume Mode.all st).map flushCo).toOption.getD st) (A ++ [])
    rw [List.append_nil]
    exact stepInvE_attach st A hinv Mode.all
  | each =>
    show InvE (((consume Mode.each st).map flushCo).toOption.getD st) (A ++ [])
    rw [List.append_nil]
    exact stepInvE_attach st A hinv Mode.each
  | first =>
    show InvE (((consume Mode.first st).map flushCo).toOption.getD st) (A ++ [])
    rw [List.append_nil]
    exact stepInvE_attach st A hinv Mode.first
  | scalar =>
    show InvE (((consume Mode.scalar st).map flushCo).toOption.getD st) (A ++ [])
    rw [List.append_nil]
    exact stepInvE_attach st A hinv Mode.scalar
  | thenA =>
    show InvE (((attachThenC st).toOption).getD st) (A ++ [])
    rw [List.append_nil]
    rcases attachThenC_cases st with hcase | hcase <;> rw [hcase]
    · exact hinv
    · exact InvE_flushCo_core st _ A hinv rfl rfl rfl rfl rfl

/-- Steps other than an error signal do not change the stored error of the
Coffee cursor. -/
theorem stepRPC_rpError (st : RP) (a : RAct) (ha : isErrAct a = false) :
    (stepRPC st a).rpError = st.rpError := by
  cases a with
  | errEv e => simp [isErrAct] at ha
  | row r =>
    show (onRowC r st).rpError = st.rpError
    unfold onRowC
    rcases hb : st.buffer with _ | buf
    · rfl
    · exact flushCo_rpError _
  | endEv => exact flushCo_rpError _
  | all =>
    rcases attachModeC_cases st Mode.all with h | ⟨-, h⟩ <;>
        rw [show stepRPC st RAct.all =
          ((consume Mode.all st).map flushCo).toOption.getD st from rfl, h]
    all_goals exact flushCo_rpError _
  | each =>
    rcases attachModeC_cases st Mode.each with h | ⟨-, h⟩ <;>
        rw [show stepRPC st RAct.each =
          ((consume Mode.each st).map flushCo).toOption.getD st from rfl, h]
    all_goals exact flushCo_rpError _
  | first =>
    rcases attachModeC_cases st Mode.first with h | ⟨-, h⟩ <;>
        rw [show stepRPC st RAct.first =
          ((consume Mode.first st).map flushCo).toOption.getD st from rfl, h]
    all_goals exact flushCo_rpError _
  | scalar =>
    rcases attachModeC_cases st Mode.scalar with h | ⟨-, h⟩ <;>
        rw [show stepRPC st RAct.scalar =
          ((consume Mode.scalar st).map flushCo).toOption.getD st from rfl, h]
    all_goals exact flushCo_rpError _
  | thenA =>
    rcases attachThenC_cases st with h | h <;>
        rw [show stepRPC st RAct.thenA = ((attachThenC st).toOption).getD st from rfl, h]
    all_goals exact flushCo_rpError _

/-- Once an error is stored on a Coffee cursor, no step delivers another
row and the error stays stored. -/
theorem stepRPC_frozen (st : RP) (a : RAct) (he : st.rpError ≠ none) :
    deliveredRows (stepRPC st a).out = deliveredRows st.out ∧
    (stepRPC st a).rpError ≠ none := by
  cases a with
  | errEv e =>
    show _ ∧ (flushCo { st with rpError := some e, finished := true }).rpError ≠ none
    have hfe := flushCo_err { st with rpError := some e, finished := true } (by simp)
    refine ⟨hfe.1, ?_⟩
    rw [flushCo_rpError]
    simp
  | row r =>
    show deliveredRows (onRowC r st).out = _ ∧ (onRowC r st).rpError ≠ none
    unfold onRowC
    rcases hb : st.buffer with _ | buf
    · exact ⟨rfl, he⟩
    · have hfe := flushCo_err { st with buffer := some (buf ++ [r]) }
        (by show st.rpError ≠ none; exact he)
      refine ⟨hfe.1, ?_⟩
      rw [flushCo_rpError]
      exact he
  | endEv =>
    have hfe := flushCo_err { st with finished := true }
      (by show st.rpError ≠ none; exact he)
    refine ⟨hfe.1, ?_⟩
    show (flushCo { st with finished := true }).rpError ≠ none
    rw [flushCo_rpError]
    exact he
  | all =>
    rcases attachModeC_cases st Mode.all with h | ⟨-, h⟩ <;>
        rw [show stepRPC st RAct.all =
          ((consume Mode.all st).map flushCo).toOption.getD st from rfl, h]
    · exact ⟨rfl, he⟩
    · have hfe := flushCo_err { st with mode := some Mode.all }
        (by show st.rpError ≠ none; exact he)
      refine ⟨hfe.1, ?_⟩
      rw [flushCo_rpError]
      exact he
  | each =>
    rcases attachModeC_cases st Mode.each with h | ⟨-, h⟩ <;>
        rw [show stepRPC st RAct.each =
          ((consume Mode.each st).map flushCo).toOption.getD st from rfl, h]
    · exact ⟨rfl, he⟩
    · have hfe := flushCo_err { st with mode := some Mode.each }
        (by show st.rpError ≠ none; exact he)
      refine ⟨hfe.1, ?_⟩
      rw [flushCo_rpError]
      exact he
  | first =>
    rcases attachModeC_cases st Mode.first with h | ⟨-, h⟩ <;>
        rw [show stepRPC st RAct.first =
          ((consume Mode.first st).map flushCo).toOption.getD st from rfl, h]
    · exact ⟨rfl, he⟩
    · have hfe := flushCo_err { st with mode := some Mode.first }
        (by show st.rpError ≠ none; exact he)
      refine ⟨hfe.1, ?_⟩
      rw [flushCo_rpError]
      exact he
  | scalar =>
    rcases attachModeC_cases st Mode.scalar with h | ⟨-, h⟩ <;>
        rw [show stepRPC st RAct.scalar =
          ((consume Mode.scalar st).map flushCo).toOption.getD st from rfl, h]
    · exact ⟨rfl, he⟩
    · have hfe := flushCo_err { st with mode := some Mode.scalar }
        (by show st.rpError ≠ none; exact he)
      refine ⟨hfe.1, ?_⟩
      rw [flushCo_rpError]
      exact he
  | thenA =>
    rcases attachThenC_cases st with h | h <;>
        rw [show stepRPC st RAct.thenA = ((attachThenC st).toOption).getD st from rfl, h]
    · exact ⟨rfl, he⟩
    · have hfe := flushCo_err { st with thenSet := true }
        (by show st.rpError ≠ none; exact he)
      refine ⟨hfe.1, ?_⟩
      rw [flushCo_rpError]
      exact he

theorem InvE_init : InvE RP.init [] := by
  refine ⟨fun _ => rfl, ⟨rfl, rfl⟩, fun hx _ => Option.noConfusion hx,
    fun _ => ⟨rfl, rfl⟩⟩

/-- Folding any interaction sequence preserves the Coffee invariant. -/
theorem runRPC_InvE : ∀ (acts : List RAct) (st : RP) (A : List Row),
    InvE st A → InvE (acts.foldl stepRPC st) (A ++ arrived acts) := by
  intro acts
  induction acts with
  | nil =>
    intro st A h
    simpa [arrived] using h
  | cons a rest ih =>
    intro st A h
    have harr : A ++ (match a with | RAct.row r => [r] | _ => []) ++ arrived rest
        = A ++ arrived (a :: rest) := by
      cases a <;> simp [arrived]
    have hstep := stepInvE st A a h
    have hrec := ih (stepRPC st a) _ hstep
    rw [harr] at hrec
    exact hrec

theorem no_err_keeps_none : ∀ (acts : List RAct) (st : RP),
    (∀ a ∈ acts, isErrAct a = false) → st.rpError = none →
    (acts.foldl stepRPC st).rpError = none := by
  intro acts
  induction acts with
  | nil => exact fun st _ h => h
  | cons a rest ih =>
    intro st ha he
    exact ih (stepRPC st a) (fun x hx => ha x (by simp [hx]))
      (by rw [stepRPC_rpError st a (ha a (by simp))]; exact he)

theorem frozen_iter : ∀ (rest : List RAct) (st : RP), st.rpError ≠ none →
    deliveredRows (rest.foldl stepRPC st).out = deliveredRows st.out := by
  intro rest
  induction rest with
  | nil => exact fun st _ => rfl
  | cons a rs ih =>
    intro st he
    have h := stepRPC_frozen st a he
    rw [List.foldl_cons, ih (stepRPC st a) h.2, h.1]

/-- C5 (amended, Coffee lineage `src/src/sqli.coffee`): a Coffee-lineage
result cursor delivers each row to the `each` callback at most once, in
arrival order with running indices (the delivered rows are always an
initial segment of the full in-order delivery); with `each` attached and
no error the delivery is exactly one callback per row; and once an error
is signaled the deliveries are frozen — rows buffered at the error, and
rows arriving after it, are never delivered.  (In the JS lineage
`src/lib/sqli.js`, `_flush` runs the consumer unconditionally, so buffered
rows ARE delivered after an error — see the counterexample.) -/
theorem C5_each_coffee :
    (∀ (st : RP) (a : RAct), st.rpError ≠ none →
      deliveredRows (stepRPC st a).out = deliveredRows st.out) ∧
    (∀ acts : List RAct, ∃ k, deliveredRows (runRPC acts).out =
      (fullDelivery (arrived acts) 0).take k) ∧
    (∀ acts : List RAct, (∀ a ∈ acts, isErrAct a = false) →
      (runRPC acts).mode = some Mode.each →
      deliveredRows (runRPC acts).out = fullDelivery (arrived acts) 0) ∧
    (∀ acts rest : List RAct, (runRPC acts).rpError ≠ none →
      deliveredRows (runRPC (acts ++ rest)).out =
        deliveredRows (runRPC acts).out) := by
  refine ⟨?_, ?_, ?_, ?_⟩
  · intro st a he
    exact (stepRPC_frozen st a he).1
  · intro acts
    have h := runRPC_InvE acts RP.init [] InvE_init
    rw [List.nil_append] at h
    exact ⟨(runRPC acts).rowIdx, h.2.1.2⟩
  · intro acts hae hm
    have h := runRPC_InvE acts RP.init [] InvE_init
    rw [List.nil_append] at h
    have he : (runRPC acts).rpError = none := no_err_keeps_none acts RP.init hae rfl
    obtain ⟨-, hidx⟩ := h.2.2.1 hm he
    exact InvE_drained h.2.1.2 hidx
  · intro acts rest he
    show deliveredRows ((acts ++ rest).foldl stepRPC RP.init).out = _
    rw [List.foldl_append]
    exact frozen_iter rest (runRPC acts) he

/-- Witness for the amended C5 at concrete cursors and traces. -/
theorem C5_each_coffee_witness :
    deliveredRows (stepRPC { RP.init with rpError := some "boom" }
        (RAct.row [("a", "1")])).out
      = deliveredRows ({ RP.init with rpError := some "boom" } : RP).out ∧
    deliveredRows (runRPC [RAct.each, RAct.row [("a", "1")], RAct.endEv]).out
      = fullDelivery (arrived [RAct.each, RAct.row [("a", "1")], RAct.endEv]) 0 ∧
    deliveredRows (runRPC ([RAct.row [("a", "1")], RAct.errEv "b"] ++ [RAct.each])).out
      = deliveredRows (runRPC [RAct.row [("a", "1")], RAct.errEv "b"]).out :=
  ⟨C5_each_coffee.1 { RP.init with rpError := some "boom" } (RAct.row [("a", "1")])
      (by decide),
   C5_each_coffee.2.2.1 [RAct.each, RAct.row [("a", "1")], RAct.endEv]
      (by decide) (by decide),
   C5_each_coffee.2.2.2 [RAct.row [("a", "1")], RAct.errEv "b"] [RAct.each]
      (by decide)⟩

/-! ## C7 (amended): `all` on the JS lineage -/

/-- Driver-side well-formedness of an interaction sequence: no row event
and no second terminal event after a terminal (end/error) event. -/
def wfGo : Bool → List RAct → Bool
  | _, [] => true
  | seenTerm, a :: rest =>
    if isTermAct a then (!seenTerm) && wfGo true rest
    else if isRowAct a then (!seenTerm) && wfGo seenTerm rest
    else wfGo seenTerm rest

theorem allOuts_append (l₁ l₂ : List ROut) :
    allOuts (l₁ ++ l₂) = allOuts l₁ ++ allOuts l₂ := by
  simp [allOuts]

theorem allOuts_of_rowOuts {L : List ROut} (h : ∀ x ∈ L, isRowOut x = true) :
    allOuts L = [] := by
  refine List.filter_eq_nil.mpr ?_
  intro x hx
  have := h x hx
  cases x <;> simp_all [isRowOut, isAllOut]

theorem allOuts_scalarEmit (x : Option Row) : allOuts (scalarEmit x) = [] := by
  unfold scalarEmit
  repeat' split
  all_goals rfl

/-- `runThen` never records an `all` delivery. -/
theorem runThen_allOuts (st : RP) :
    allOuts (runThen st).out = allOuts st.out := by
  rcases runThen_out st with h | h <;> rw [h]
  rw [allOuts_append]
  simp [allOuts, isAllOut]

theorem runConsume_none (st : RP) (hm : st.mode = none) : runConsume st = st := by
  unfold runConsume
  rw [hm]

theorem eachLoop_isAllOut (buf : List Row) (i idx : Nat) :
    ∀ x ∈ (eachLoop i buf idx).1, isAllOut x = false := by
  intro x hx
  have h := eachLoop_rowOut buf i idx x hx
  cases x <;> simp_all [isRowOut, isAllOut]

theorem scalarEmit_isAllOut (y : Option Row) :
    ∀ x ∈ scalarEmit y, isAllOut x = false := by
  unfold scalarEmit
  repeat' split
  all_goals intro x hx
  all_goals simp at hx
  all_goals simp [hx, isAllOut]

/-- The `each`/`first`/`scalar` consumers never record an `all` delivery. -/
theorem runConsume_not_all (st : RP) (m : Mode) (hm : st.mode = some m)
    (hne : m ≠ Mode.all) :
    allOuts (runConsume st).out = allOuts st.out := by
  cases m
  case all => exact absurd rfl hne
  all_goals
    unfold runConsume
    rw [hm]
    repeat' split
    all_goals
      first
        | rfl
        | exact eachLoop_isAllOut _ _ _
        | exact scalarEmit_isAllOut _
        | simp_all [allOuts_append, allOuts_scalarEmit, allOuts, isAllOut]
    all_goals
      first
        | exact eachLoop_isAllOut _ _ _
        | exact scalarEmit_isAllOut _

theorem runConsume_all_none (st : RP) (hm : st.mode = some Mode.all)
    (hb : st.buffer = none) : runConsume st = st := by
  unfold runConsume
  rw [hm, hb]

theorem runConsume_all_nofin (st : RP) (hm : st.mode = some Mode.all)
    (buf : List Row) (hb : st.buffer = some buf) (hf : st.finished = false) :
    runConsume st = st := by
  unfold runConsume
  rw [hm, hb, hf]
  simp

theorem runConsume_all_fin (st : RP) (hm : st.mode = some Mode.all)
    (buf : List Row) (hb : st.buffer = some buf) (hf : st.finished = true) :
    runConsume st =
      { st with buffer := none, out := st.out ++ [ROut.allOut buf] } := by
  unfold runConsume
  rw [hm, hb, hf]
  simp

theorem mem_allOuts {l : List Row} {L : List ROut} :
    ROut.allOut l ∈ allOuts L ↔ ROut.allOut l ∈ L := by
  simp [allOuts, List.mem_filter, isAllOut]

theorem allOuts_eq_nil {L : List ROut} (h : ∀ l, ROut.allOut l ∉ L) :
    allOuts L = [] := by
  refine List.filter_eq_nil_iff.mpr ?_
  intro x hx
  cases x with
  | allOut rows => exact absurd hx (h rows)
  | _ => simp [isAllOut]

theorem runConsume_buffer_none (st : RP) (hb : st.buffer = none) :
    (runConsume st).buffer = none := by
  unfold runConsume
  repeat' split
  all_goals simp_all

/-- Invariant of the JS cursor for the `all` claim, relative to the arrived
rows `A` and whether the statement has terminated (`T`): the `all` callback
fires at most once, only after termination, with exactly the arrived rows. -/
def IC7 (st : RP) (A : List Row) (T : Bool) : Prop :=
  st.finished = T ∧
  (st.mode = none → allOuts st.out = [] ∧ st.buffer = some A) ∧
  (st.mode = some Mode.all → allOuts st.out = [] → st.buffer = some A) ∧
  (∀ m, st.mode = some m → m ≠ Mode.all → allOuts st.out = []) ∧
  (∀ l, ROut.allOut l ∈ st.out →
    T = true ∧ l = A ∧ allOuts st.out = [ROut.allOut l] ∧ st.buffer = none)

/-- `runThen` transports the invariant. -/
theorem IC7_runThen (st : RP) (A : List Row) (T : Bool) (h : IC7 st A T) :
    IC7 (runThen st) A T := by
  obtain ⟨i1, i2, i3, i4, i5⟩ := h
  refine ⟨?_, ?_, ?_, ?_, ?_⟩
  · rw [runThen_finished]
    exact i1
  · intro hm
    rw [runThen_mode] at hm
    rw [runThen_allOuts, runThen_buffer]
    exact i2 hm
  · intro hm hall
    rw [runThen_mode] at hm
    rw [runThen_allOuts] at hall
    rw [runThen_buffer]
    exact i3 hm hall
  · intro m hm hne
    rw [runThen_mode] at hm
    rw [runThen_allOuts]
    exact i4 m hm hne
  · intro l hl
    have hl' : ROut.allOut l ∈ st.out := by
      rcases runThen_out st with hout | hout <;> rw [hout] at hl
      · exact hl
      · rcases List.mem_append.mp hl with h1 | h1
        · exact h1
        · simp at h1
    obtain ⟨j1, j2, j3, j4⟩ := i5 l hl'
    exact ⟨j1, j2, by rw [runThen_allOuts]; exact j3, by rw [runThen_buffer]; exact j4⟩

/-- Flushing from an invariant state preserves the invariant. -/
theorem IC7_flush (st : RP) (A : List Row) (T : Bool) (h : IC7 st A T) :
    IC7 (flush st) A T := by
  obtain ⟨i1, i2, i3, i4, i5⟩ := h
  show IC7 (runThen (runConsume st)) A T
  refine IC7_runThen _ A T ?_
  rcases hmode : st.mode with _ | m
  · rw [runConsume_none st hmode]
    exact ⟨i1, i2, i3, i4, i5⟩
  · by_cases hall : m = Mode.all
    · subst hall
      rcases hb : st.buffer with _ | buf
      · rw [runConsume_all_none st hmode hb]
        exact ⟨i1, i2, i3, i4, i5⟩
      · cases hf : st.finished
        · rw [runConsume_all_nofin st hmode buf hb hf]
          exact ⟨i1, i2, i3, i4, i5⟩
        · rw [runConsume_all_fin st hmode buf hb hf]
          have hT : T = true := by rw [← i1, hf]
          have hnone : allOuts st.out = [] := by
            refine allOuts_eq_nil ?_
            intro l hl
            have := (i5 l hl).2.2.2
            rw [hb] at this
            cases this
          have hbufA : buf = A := by
            have := i3 hmode hnone
            rw [hb] at this
            exact Option.some_inj.mp this
          refine ⟨hf.trans hT.symm, ?_, ?_, ?_, ?_⟩
          · intro hm
            have hm2 : st.mode = none := hm
            rw [hmode] at hm2
            cases hm2
          · intro _ hall'
            have hall2 : allOuts (st.out ++ [ROut.allOut buf]) = [] := hall'
            rw [allOuts_append, hnone] at hall2
            simp [allOuts, isAllOut] at hall2
          · intro m' hm' hne
            have hm2 : st.mode = some m' := hm'
            rw [hmode] at hm2
            exact absurd (Option.some_inj.mp hm2).symm hne
          · intro l hl
            have hl' : ROut.allOut l ∈ st.out ++ [ROut.allOut buf] := hl
            rcases List.mem_append.mp hl' with h1 | h1
            · have hc := (i5 l h1).2.2.2
              rw [hb] at hc
              cases hc
            · simp at h1
              refine ⟨hT, by rw [h1, hbufA], ?_, rfl⟩
              show allOuts (st.out ++ [ROut.allOut buf]) = [ROut.allOut l]
              rw [allOuts_append, hnone, h1]
              rfl
    · -- non-`all` consumer
      have hallpres := runConsume_not_all st m hmode hall
      refine ⟨?_, ?_, ?_, ?_, ?_⟩
      · rw [runConsume_finished]
        exact i1
      · intro hm
        rw [runConsume_mode, hmode] at hm
        cases hm
      · intro hm _
        rw [runConsume_mode, hmode] at hm
        exact absurd (Option.some_inj.mp hm) hall
      · intro m' hm' hne
        rw [hallpres]
        exact i4 m hmode hall
      · intro l hl
        have hl' : ROut.allOut l ∈ st.out := by
          have hmem : ROut.allOut l ∈ allOuts (runConsume st).out :=
            mem_allOuts.mpr hl
          rw [hallpres] at hmem
          exact mem_allOuts.mp hmem
        obtain ⟨j1, j2, j3, j4⟩ := i5 l hl'
        exact ⟨j1, j2, by rw [hallpres]; exact j3,
          by rw [runConsume_buffer_none st j4]⟩

/-- A row event before termination preserves the `all` invariant with the
row recorded as arrived. -/
theorem stepIC7_row (st : RP) (A : List Row) (r : Row) (h : IC7 st A false) :
    IC7 (stepRP st (RAct.row r)) (A ++ [r]) false := by
  obtain ⟨i1, i2, i3, i4, i5⟩ := h
  show IC7 (onRow r st) (A ++ [r]) false
  rcases hb : st.buffer with _ | buf
  · have hs : onRow r st = st := by
      unfold onRow
      rw [hb]
    rw [hs]
    refine ⟨i1, ?_, ?_, i4, ?_⟩
    · intro hm
      have hc := (i2 hm).2
      rw [hb] at hc
      cases hc
    · intro hm hall
      have hc := i3 hm hall
      rw [hb] at hc
      cases hc
    · intro l hl
      have hc := (i5 l hl).1
      cases hc
  · have hs : onRow r st = flush { st with buffer := some (buf ++ [r]) } := by
      unfold onRow
      rw [hb]
    rw [hs]
    refine IC7_flush _ _ _ ?_
    refine ⟨i1, ?_, ?_, i4, ?_⟩
    · intro hm
      obtain ⟨ha2, hb2⟩ := i2 hm
      rw [hb] at hb2
      refine ⟨ha2, ?_⟩
      show some (buf ++ [r]) = some (A ++ [r])
      rw [Option.some_inj.mp hb2]
    · intro hm hall
      have hb2 := i3 hm hall
      rw [hb] at hb2
      show some (buf ++ [r]) = some (A ++ [r])
      rw [Option.some_inj.mp hb2]
    · intro l hl
      have hc := (i5 l hl).1
      cases hc

/-- The end signal preserves the `all` invariant and marks termination. -/
theorem stepIC7_end (st : RP) (A : List Row) (h : IC7 st A false) :
    IC7 (stepRP st RAct.endEv) A true := by
  obtain ⟨i1, i2, i3, i4, i5⟩ := h
  show IC7 (flush { st with finished := true }) A true
  refine IC7_flush _ _ _ ?_
  refine ⟨rfl, i2, i3, i4, ?_⟩
  intro l hl
  have hc := (i5 l hl).1
  cases hc

/-- The error signal preserves the `all` invariant and marks termination. -/
theorem stepIC7_err (st : RP) (A : List Row) (e : String) (h : IC7 st A false) :
    IC7 (stepRP st (RAct.errEv e)) A true := by
  obtain ⟨i1, i2, i3, i4, i5⟩ := h
  show IC7 (flush { st with rpError := some e, finished := true }) A true
  refine IC7_flush _ _ _ ?_
  refine ⟨rfl, i2, i3, i4, ?_⟩
  intro l hl
  have hc := (i5 l hl).1
  cases hc

/-- Attaching any consumption mode preserves the `all` invariant. -/
theorem stepIC7_attach (st : RP) (A : List Row) (T : Bool) (m : Mode)
    (h : IC7 st A T) :
    IC7 (((consume m st).map flush).toOption.getD st) A T := by
  rcases attachMode_cases st m with hc | ⟨hmode, hc⟩
  · rw [hc]
    exact h
  · rw [hc]
    obtain ⟨i1, i2, i3, i4, i5⟩ := h
    obtain ⟨hout0, hbuf0⟩ := i2 hmode
    refine IC7_flush _ _ _ ?_
    refine ⟨i1, ?_, ?_, ?_, ?_⟩
    · intro hm
      have hm2 : (some m : Option Mode) = none := hm
      cases hm2
    · intro _ _
      exact hbuf0
    · intro m' _ _
      exact hout0
    · intro l hl
      have hmem : ROut.allOut l ∈ allOuts st.out := mem_allOuts.mpr hl
      rw [hout0] at hmem
      cases hmem

/-- Attaching `then` preserves the `all` invariant. -/
theorem stepIC7_then (st : RP) (A : List Row) (T : Bool) (h : IC7 st A T) :
    IC7 (((attachThen st).toOption).getD st) A T := by
  rcases attachThen_cases st with hc | hc <;> rw [hc]
  · exact h
  · obtain ⟨i1, i2, i3, i4, i5⟩ := h
    exact IC7_flush _ _ _ ⟨i1, i2, i3, i4, i5⟩

/-- The `all` invariant holds along every well-formed run. -/
theorem runIC7 : ∀ (acts : List RAct) (st : RP) (A : List Row) (T : Bool),
    wfGo T acts = true → IC7 st A T →
    IC7 (acts.foldl stepRP st) (A ++ arrived acts) (T || acts.any isTermAct) := by
  intro acts
  induction acts with
  | nil =>
    intro st A T _ h
    simpa [arrived] using h
  | cons a rest ih =>
    intro st A T hwf h
    cases a with
    | row r =>
      simp [wfGo, isTermAct, isRowAct] at hwf
      obtain ⟨hT, hrest⟩ := hwf
      subst hT
      have hstep := stepIC7_row st A r h
      have hrec := ih _ (A ++ [r]) false hrest hstep
      simpa [arrived, isTermAct, List.append_assoc] using hrec
    | endEv =>
      simp [wfGo, isTermAct] at hwf
      obtain ⟨hT, hrest⟩ := hwf
      subst hT
      have hstep := stepIC7_end st A h
      have hrec := ih _ A true hrest hstep
      simpa [arrived, isTermAct] using hrec
    | errEv e =>
      simp [wfGo, isTermAct] at hwf
      obtain ⟨hT, hrest⟩ := hwf
      subst hT
      have hstep := stepIC7_err st A e h
      have hrec := ih _ A true hrest hstep
      simpa [arrived, isTermAct] using hrec
    | all =>
      have hwf' : wfGo T rest = true := by
        simpa [wfGo, isTermAct, isRowAct] using hwf
      have hstep := stepIC7_attach st A T Mode.all h
      have hrec := ih (stepRP st RAct.all) A T hwf' hstep
      simpa [arrived, isTermAct] using hrec
    | each =>
      have hwf' : wfGo T rest = true := by
        simpa [wfGo, isTermAct, isRowAct] using hwf
      have hstep := stepIC7_attach st A T Mode.each h
      have hrec := ih (stepRP st RAct.each) A T hwf' hstep
      simpa [arrived, isTermAct] using hrec
    | first =>
      have hwf' : wfGo T rest = true := by
        simpa [wfGo, isTermAct, isRowAct] using hwf
      have hstep := stepIC7_attach st A T Mode.first h
      have hrec := ih (stepRP st RAct.first) A T hwf' hstep
      simpa [arrived, isTermAct] using hrec
    | scalar =>
      have hwf' : wfGo T rest = true := by
        simpa [wfGo, isTermAct, isRowAct] using hwf
      have hstep := stepIC7_attach st A T Mode.scalar h
      have hrec := ih (stepRP st RAct.scalar) A T hwf' hstep
      simpa [arrived, isTermAct] using hrec
    | thenA =>
      have hwf' : wfGo T rest = true := by
        simpa [wfGo, isTermAct, isRowAct] using hwf
      have hstep := stepIC7_then st A T h
      have hrec := ih (stepRP st RAct.thenA) A T hwf' hstep
      simpa [arrived, isTermAct] using hrec

theorem IC7_init : IC7 RP.init [] false := by
  refine ⟨rfl, fun _ => ⟨rfl, rfl⟩, fun _ _ => rfl, fun m hm _ => ?_, fun l hl => ?_⟩
  · cases hm
  · cases hl

theorem wfGo_take : ∀ (acts : List RAct) (T : Bool) (k : Nat),
    wfGo T acts = true → wfGo T (acts.take k) = true := by
  intro acts
  induction acts with
  | nil =>
    intro T k _
    simp [wfGo]
  | cons a rest ih =>
    intro T k hwf
    cases k with
    | zero => rfl
    | succ k =>
      simp only [List.take_succ_cons]
      unfold wfGo at hwf ⊢
      by_cases ht : isTermAct a = true
      · simp [ht] at hwf ⊢
        exact ⟨hwf.1, ih true k hwf.2⟩
      · by_cases hr : isRowAct a = true
        · simp [ht, hr] at hwf ⊢
          exact ⟨hwf.1, ih T k hwf.2⟩
        · simp [ht, hr] at hwf ⊢
          exact ih T k hwf

/-- C7 (amended): for every well-formed driver event sequence (rows first,
then at most one terminal end/error signal), the JS-lineage `all` cursor
invokes its callback at most once, with exactly the full ordered sequence
of arrived rows, and only at a point where the statement has already
terminated — but the terminating signal may be the error signal, not only
`end` (the counterexample refutes the claim's "only after the end
signal"). -/
theorem C7_all_spec : ∀ acts : List RAct, wfGo false acts = true →
    ((allOuts (runRP acts).out = []) ∨
      ∃ l, allOuts (runRP acts).out = [ROut.allOut l]) ∧
    (∀ l, ROut.allOut l ∈ (runRP acts).out →
      l = arrived acts ∧ acts.any isTermAct = true) ∧
    (∀ (k : Nat) (l : List Row), ROut.allOut l ∈ (runRP (acts.take k)).out →
      l = arrived (acts.take k) ∧ (acts.take k).any isTermAct = true) := by
  intro acts hwf
  have key : ∀ acts2 : List RAct, wfGo false acts2 = true →
      ∀ l, ROut.allOut l ∈ (runRP acts2).out →
      l = arrived acts2 ∧ acts2.any isTermAct = true := by
    intro acts2 hwf2 l hl
    have h := runIC7 acts2 RP.init [] false hwf2 IC7_init
    rw [List.nil_append] at h
    obtain ⟨-, -, -, -, i5⟩ := h
    obtain ⟨j1, j2, -, -⟩ := i5 l hl
    exact ⟨j2, by simpa using j1⟩
  refine ⟨?_, key acts hwf,
    fun k l hl => key (acts.take k) (wfGo_take acts false k hwf) l hl⟩
  have h := runIC7 acts RP.init [] false hwf IC7_init
  rw [List.nil_append] at h
  obtain ⟨-, -, -, -, i5⟩ := h
  rcases hh : allOuts (runRP acts).out with _ | ⟨x, xs⟩
  · exact Or.inl rfl
  · right
    have hxmem : x ∈ allOuts (runRP acts).out := by
      rw [hh]
      exact List.mem_cons_self _ _
    have hxall : isAllOut x = true := List.of_mem_filter hxmem
    cases x
    case allOut l =>
      exact ⟨l, hh ▸ (i5 l (mem_allOuts.mp hxmem)).2.2.1⟩
    all_goals simp [isAllOut] at hxall

/-- Witness for the amended C7 at a concrete well-formed trace. -/
theorem C7_all_spec_witness :
    ((allOuts (runRP [RAct.all, RAct.row [("id", "1")], RAct.endEv]).out = []) ∨
      ∃ l, allOuts (runRP [RAct.all, RAct.row [("id", "1")], RAct.endEv]).out
        = [ROut.allOut l]) ∧
    (∀ l, ROut.allOut l ∈ (runRP [RAct.all, RAct.row [("id", "1")], RAct.endEv]).out →
      l = arrived [RAct.all, RAct.row [("id", "1")], RAct.endEv] ∧
      ([RAct.all, RAct.row [("id", "1")], RAct.endEv]).any isTermAct = true) :=
  ⟨(C7_all_spec [RAct.all, RAct.row [("id", "1")], RAct.endEv] (by decide)).1,
   (C7_all_spec [RAct.all, RAct.row [("id", "1")], RAct.endEv] (by decide)).2.1⟩

/-! ## The Connection Promise / statement queue (`src/lib/sqli.js` lines
63-319), wired to the PostgreSQL dialect SQL generators
(`src/lib/postgres.js` lines 27-52).

Statements are identified by the order of their creation (`nextId`).
`tickTasks` models the `process.nextTick` queue: `_schedule` moves the
queue head there and a separate `tick` action performs the deferred
`_run`.  The driver side of `wrapper.execute` is the environment: once a
statement has started (`started`), the driver may fire its row / end /
error callbacks as separate actions, until the statement's terminal
callback (`finishedD`).  `trace` logs every driver-boundary event. -/

/-- A driver-boundary event of one connection. -/
inductive CEv where
  | execStart (id : Nat)
  | rowF (id : Nat)
  | endF (id : Nat)
  | errF (id : Nat)
deriving DecidableEq, Repr

/-- State of a `ConnectionPromise` together with its environment. -/
structure CP where
  queue : List Nat
  connection : Bool
  resolved : Bool
  cpError : Option String
  released : Bool
  pending : Option Nat
  inTransaction : Bool
  readyCb : Bool
  readyHandled : Bool
  errorCb : Bool
  errorHandled : Bool
  tickTasks : List Nat
  nextId : Nat
  started : List Nat
  finishedD : List Nat
  relCalls : Nat
  closeCalls : Nat
  stmts : List (Nat × String × Option (List String))
  trace : List CEv
deriving DecidableEq, Repr

/-- The freshly constructed `ConnectionPromise`
(`src/lib/sqli.js` lines 63-78). -/
def CP.init : CP :=
  { queue := [], connection := false, resolved := false, cpError := none,
    released := false, pending := none, inTransaction := false,
    readyCb := false, readyHandled := false, errorCb := false,
    errorHandled := false, tickTasks := [], nextId := 0, started := [],
    finishedD := [], relCalls := 0, closeCalls := 0, stmts := [], trace := [] }

/-- `_checkState` (`src/lib/sqli.js` lines 92-110); the base `Driver` has
no `getErrorMsg`, so the broken message uses `Error.prototype.toString`. -/
def checkState (st : CP) : Option String :=
  if st.released then
    match st.cpError with
    | some e => some ("Connection is broken due to an error: Error: " ++ e)
    | none => some "Connection is no longer available"
  else
    match st.cpError with
    | some e => some ("Connection is paused due to an error:\n" ++ e)
    | none => none

/-- `_callbacks` (`src/lib/sqli.js` lines 112-123); the user callback
bodies are external, only the handled-once flags are tracked. -/
def callbacks (st : CP) : CP :=
  let st1 := if st.errorCb ∧ st.cpError ≠ none ∧ ¬st.errorHandled then
    { st with errorHandled := true } else st
  if st1.readyCb ∧ st1.connection ∧ ¬st1.readyHandled then
    { st1 with readyHandled := true } else st1

/-- `_schedule` (`src/lib/sqli.js` lines 125-134): move the queue head to
the next-tick queue. -/
def schedule (st : CP) : CP :=
  match st.queue with
  | [] => st
  | n :: rest => { st with queue := rest, tickTasks := st.tickTasks ++ [n] }

/-- The synchronous part of `_run` (`src/lib/sqli.js` lines 136-143, 151):
mark the statement pending and call `wrapper.execute` (recorded as an
`execStart` event); dropped silently on a released connection (line 137). -/
def runStmt (s : Nat) (st : CP) : CP :=
  if st.released then st
  else { st with
    pending := some s
    started := st.started ++ [s]
    trace := st.trace ++ [CEv.execStart s] }

/-- The `next` closure of `_run` (`src/lib/sqli.js` lines 144-150). -/
def nextFn (s : Nat) (st : CP) : CP :=
  if st.pending = some s then
    let st1 := { st with pending := none }
    let st2 := if st1.cpError = none then schedule st1 else st1
    callbacks st2
  else st

/-- `_runIfNext` (`src/lib/sqli.js` lines 176-182). -/
def runIfNext (s : Nat) (st : CP) : CP :=
  if st.pending = none ∧ st.connection ∧ st.queue.head? = some s then
    runStmt s { st with queue := st.queue.tail }
  else st

/-- `exec` (`src/lib/sqli.js` lines 192-202).  The SQL argument is a
`String` by typing, so the non-string usage throw cannot arise in the
model; a missing `params` is already `none`.  Returns the new statement's
id (standing for its `ResultPromise`). -/
def exec (sql : String) (params : Option (List String)) (st : CP) :
    Except String (CP × Nat) :=
  match checkState st with
  | some m => Except.error m
  | none =>
    let id := st.nextId
    let st1 := { st with
      nextId := id + 1
      queue := st.queue ++ [id]
      stmts := st.stmts ++ [(id, sql, params)] }
    Except.ok (runIfNext id st1, id)

/-- `_clearError` (`src/lib/sqli.js` lines 204-207). -/
def clearError (st : CP) : CP :=
  { st with cpError := none, errorHandled := false }

/-- `resume` (`src/lib/sqli.js` lines 212-217). -/
def resume (reset : Bool) (st : CP) : Except String CP :=
  if st.cpError = none then Except.error "Connection is not currently paused"
  else
    let st1 := clearError st
    if reset then Except.ok { st1 with queue := [] }
    else Except.ok (schedule st1)

/-- `release` (`src/lib/sqli.js` lines 223-228); the releaser invocation
is counted. -/
def release (st : CP) : CP :=
  if st.released then st
  else { st with released := true, relCalls := st.relCalls + 1 }

/-- `close` (`src/lib/sqli.js` lines 233-238); the closer invocation is
counted. -/
def close (st : CP) : CP :=
  if st.released then st
  else { st with released := true, closeCalls := st.closeCalls + 1 }

/-- PostgreSQL `begin` SQL (`src/lib/postgres.js` lines 27-41). -/
def pgBegin (isolation : Option Nat) : String :=
  let id := match isolation with
    | some 0 => "READ UNCOMMITTED"
    | some 2 => "REPEATABLE READ"
    | some 3 => "SERIALIZABLE"
    | _ => "READ COMMITTED"
  "START TRANSACTION ISOLATION LEVEL " ++ id

/-- PostgreSQL `save` SQL (`src/lib/postgres.js` lines 42-44). -/
def pgSave (savepoint : String) : String := "SAVEPOINT " ++ savepoint

/-- PostgreSQL `commit` SQL (`src/lib/postgres.js` lines 45-47). -/
def pgCommit : String := "COMMIT"

/-- PostgreSQL `rollback` SQL (`src/lib/postgres.js` lines 48-52). -/
def pgRollback (savepoint : Option String) : String :=
  match savepoint with
  | none => "ROLLBACK"
  | some s => "ROLLBACK TO SAVEPOINT " ++ s

/-- `begin` (`src/lib/sqli.js` lines 250-261); with the PostgreSQL dialect
the generated SQL is a single string, so the array loop runs once. -/
def beginT (isolation : Option Nat) (st : CP) : Except String (CP × Nat) :=
  exec (pgBegin isolation) none { st with inTransaction := true }

/-- `commit` (`src/lib/sqli.js` lines 267-270). -/
def commitT (st : CP) : Except String (CP × Nat) :=
  exec pgCommit none { st with inTransaction := false }

/-- `save` (`src/lib/sqli.js` lines 278-280). -/
def saveT (nm : String) (st : CP) : Except String (CP × Nat) :=
  exec (pgSave nm) none st

/-- The synchronous mutations `rollback` performs before its `exec`
(`src/lib/sqli.js` lines 289-294). -/
def rollbackSteps (savepoint : Option String) (st : CP) : CP :=
  let st1 := if savepoint = none then { st with inTransaction := false } else st
  if st1.cpError ≠ none then { (clearError st1) with queue := [] } else st1

/-- `rollback` (`src/lib/sqli.js` lines 289-296). -/
def rollback (savepoint : Option String) (st : CP) : Except String (CP × Nat) :=
  exec (pgRollback savepoint) none (rollbackSteps savepoint st)

/-- The `resolve` handler on a successful connection
(`src/lib/sqli.js` lines 79-89); `once` means it fires at most once. -/
def resolveOk (st : CP) : CP :=
  if st.resolved then st
  else
    let st1 := { st with resolved := true, connection := true }
    let st2 :=
      match st1.queue with
      | n :: rest =>
        if st1.pending = none then runStmt n { st1 with queue := rest } else st1
      | [] => st1
    callbacks st2

/-- The `resolve` handler on a failed connection
(`src/lib/sqli.js` lines 79-81, 88). -/
def resolveErr (e : String) (st : CP) : CP :=
  if st.resolved then st
  else callbacks { st with resolved := true, cpError := some e }

/-- `util.inspect` of the parameter array as interpolated into the wrapped
error message (`src/lib/sqli.js` line 165). -/
def inspectParams : Option (List String) → String
  | none => "undefined"
  | some [] => "[]"
  | some l => "[ " ++ String.intercalate ", " (l.map fun s => "'" ++ s ++ "'") ++ " ]"

/-- The diagnostic wrapper around a statement execution error
(`src/lib/sqli.js` lines 162-167). -/
def wrapMsg (sql : String) (params : Option (List String)) (cause : String) :
    String :=
  "Error happened when executing statement.\n Statement: '" ++ sql ++
    "'\n Arguments: '" ++ inspectParams params ++ "'\n Cause: " ++ cause

/-- Statement text and parameters by id. -/
def stmtOf (st : CP) (s : Nat) : String × Option (List String) :=
  match st.stmts.lookup s with
  | some p => p
  | none => ("", none)

/-- A driver row callback for a started, unfinished statement
(`src/lib/sqli.js` lines 152-155): `next()` runs, then the row is emitted
to the statement's resolver. -/
def rowEv (s : Nat) (st : CP) : CP :=
  if s ∈ st.started ∧ s ∉ st.finishedD then
    nextFn s { st with trace := st.trace ++ [CEv.rowF s] }
  else st

/-- A driver end callback (`src/lib/sqli.js` lines 156-159). -/
def endEv (s : Nat) (st : CP) : CP :=
  if s ∈ st.started ∧ s ∉ st.finishedD then
    nextFn s { st with
      trace := st.trace ++ [CEv.endF s]
      finishedD := st.finishedD ++ [s] }
  else st

/-- A driver error callback (`src/lib/sqli.js` lines 160-172): the first
error observed on the connection is wrapped and stored, pausing the
queue. -/
def errEv (s : Nat) (e : String) (st : CP) : CP :=
  if s ∈ st.started ∧ s ∉ st.finishedD then
    let st1 := { st with
      trace := st.trace ++ [CEv.errF s]
      finishedD := st.finishedD ++ [s] }
    let st2 :=
      if st1.cpError = none then
        { st1 with cpError := some (wrapMsg (stmtOf st1 s).1 (stmtOf st1 s).2 e) }
      else st1
    nextFn s st2
  else st

/-- Running one queued `process.nextTick` task: the deferred `_run`
(`src/lib/sqli.js` lines 128-132). -/
def tick (st : CP) : CP :=
  match st.tickTasks with
  | [] => st
  | t :: rest => runStmt t { st with tickTasks := rest }

/-- `ready` (`src/lib/sqli.js` lines 303-306). -/
def readyA (st : CP) : CP :=
  callbacks { st with readyCb := true }

/-- `error` (`src/lib/sqli.js` lines 316-319). -/
def errorA (st : CP) : CP :=
  callbacks { st with errorCb := true }

/-- One interaction with the connection: a user call, the connection
resolution, a driver callback, or a `process.nextTick` turn. -/
inductive CAct where
  | exec (sql : String) (params : Option (List String))
  | resume (reset : Bool)
  | rollback (sp : Option String)
  | beginT (isolation : Option Nat)
  | commitT
  | saveT (nm : String)
  | release
  | close
  | resolveOk
  | resolveErr (e : String)
  | row (s : Nat)
  | endD (s : Nat)
  | errD (s : Nat) (e : String)
  | tick
  | ready
  | errorCb
deriving DecidableEq, Repr

/-- Total step function: a throwing user call propagates its exception,
leaving exactly the mutations made before the throw (none for `exec` and
`resume`; the flag/queue mutations for `begin`/`commit`/`rollback`). -/
def step (st : CP) (a : CAct) : CP :=
  match a with
  | CAct.exec sql params =>
    match exec sql params st with
    | Except.ok (st', _) => st'
    | Except.error _ => st
  | CAct.resume r =>
    match resume r st with
    | Except.ok st' => st'
    | Except.error _ => st
  | CAct.rollback sp =>
    match rollback sp st with
    | Except.ok (st', _) => st'
    | Except.error _ => rollbackSteps sp st
  | CAct.beginT iso =>
    match beginT iso st with
    | Except.ok (st', _) => st'
    | Except.error _ => { st with inTransaction := true }
  | CAct.commitT =>
    match commitT st with
    | Except.ok (st', _) => st'
    | Except.error _ => { st with inTransaction := false }
  | CAct.saveT nm =>
    match saveT nm st with
    | Except.ok (st', _) => st'
    | Except.error _ => st
  | CAct.release => release st
  | CAct.close => close st
  | CAct.resolveOk => resolveOk st
  | CAct.resolveErr e => resolveErr e st
  | CAct.row s => rowEv s st
  | CAct.endD s => endEv s st
  | CAct.errD s e => errEv s e st
  | CAct.tick => tick st
  | CAct.ready => readyA st
  | CAct.errorCb => errorA st

/-- Run a connection from the freshly constructed promise. -/
def runCP (acts : List CAct) : CP :=
  acts.foldl step CP.init

/-- Run a connection from an arbitrary state. -/
def runFrom (st : CP) (acts : List CAct) : CP :=
  acts.foldl step st

/-! ## Characterizing the throwing user calls -/

/-- The state `exec` builds before `_runIfNext`. -/
def execState (sql : String) (p : Option (List String)) (st : CP) : CP :=
  { st with
    nextId := st.nextId + 1
    queue := st.queue ++ [st.nextId]
    stmts := st.stmts ++ [(st.nextId, sql, p)] }

theorem exec_cases (sql : String) (p : Option (List String)) (st : CP) :
    (∃ m, checkState st = some m ∧ exec sql p st = Except.error m) ∨
    (checkState st = none ∧
      exec sql p st = Except.ok (runIfNext st.nextId (execState sql p st), st.nextId)) := by
  cases h : checkState st with
  | none =>
    right
    refine ⟨rfl, ?_⟩
    unfold exec
    rw [h]
    rfl
  | some m =>
    left
    refine ⟨m, rfl, ?_⟩
    unfold exec
    rw [h]

theorem step_exec_cases (sql : String) (p : Option (List String)) (st : CP) :
    step st (CAct.exec sql p) = st ∨
    step st (CAct.exec sql p) = runIfNext st.nextId (execState sql p st) := by
  rcases exec_cases sql p st with ⟨m, -, h⟩ | ⟨-, h⟩
  · left
    simp only [step, h]
  · right
    simp only [step, h]

theorem step_rollback_cases (sp : Option String) (st : CP) :
    step st (CAct.rollback sp) = rollbackSteps sp st ∨
    step st (CAct.rollback sp) =
      runIfNext (rollbackSteps sp st).nextId
        (execState (pgRollback sp) none (rollbackSteps sp st)) := by
  rcases exec_cases (pgRollback sp) none (rollbackSteps sp st) with ⟨m, -, h⟩ | ⟨-, h⟩
  · left
    simp only [step, rollback, h]
  · right
    simp only [step, rollback, h]

theorem step_beginT_cases (iso : Option Nat) (st : CP) :
    step st (CAct.beginT iso) = { st with inTransaction := true } ∨
    step st (CAct.beginT iso) =
      runIfNext st.nextId (execState (pgBegin iso) none { st with inTransaction := true }) := by
  rcases exec_cases (pgBegin iso) none { st with inTransaction := true } with
    ⟨m, -, h⟩ | ⟨-, h⟩
  · left
    simp only [step, beginT, h]
  · right
    simp only [step, beginT, h]

theorem step_commitT_cases (st : CP) :
    step st CAct.commitT = { st with inTransaction := false } ∨
    step st CAct.commitT =
      runIfNext st.nextId (execState pgCommit none { st with inTransaction := false }) := by
  rcases exec_cases pgCommit none { st with inTransaction := false } with
    ⟨m, -, h⟩ | ⟨-, h⟩
  · left
    simp only [step, commitT, h]
  · right
    simp only [step, commitT, h]

theorem step_saveT_cases (nm : String) (st : CP) :
    step st (CAct.saveT nm) = st ∨
    step st (CAct.saveT nm) = runIfNext st.nextId (execState (pgSave nm) none st) := by
  rcases exec_cases (pgSave nm) none st with ⟨m, -, h⟩ | ⟨-, h⟩
  · left
    simp only [step, saveT, h]
  · right
    simp only [step, saveT, h]

theorem step_resume_cases (r : Bool) (st : CP) :
    step st (CAct.resume r) = st ∨
    (st.cpError ≠ none ∧
      step st (CAct.resume r) =
        (if r then { clearError st with queue := [] } else schedule (clearError st))) := by
  cases h : st.cpError with
  | none =>
    left
    simp only [step, resume, h]
    rfl
  | some e =>
    right
    refine ⟨by simp, ?_⟩
    simp only [step, resume, h]
    cases r <;> rfl

/-! ## C8: release/close fire exactly one action exactly once -/

theorem qframe_runIfNext (s : Nat) (st : CP) :
    (runIfNext s st).relCalls = st.relCalls ∧
    (runIfNext s st).closeCalls = st.closeCalls ∧
    (runIfNext s st).released = st.released := by
  unfold runIfNext runStmt
  repeat' split
  all_goals exact ⟨rfl, rfl, rfl⟩

theorem qframe_callbacks (st : CP) :
    (callbacks st).relCalls = st.relCalls ∧
    (callbacks st).closeCalls = st.closeCalls ∧
    (callbacks st).released = st.released := by
  unfold callbacks
  dsimp only
  repeat' split
  all_goals exact ⟨rfl, rfl, rfl⟩

theorem qframe_schedule (st : CP) :
    (schedule st).relCalls = st.relCalls ∧
    (schedule st).closeCalls = st.closeCalls ∧
    (schedule st).released = st.released := by
  unfold schedule
  split
  all_goals exact ⟨rfl, rfl, rfl⟩

theorem qframe_runStmt (s : Nat) (st : CP) :
    (runStmt s st).relCalls = st.relCalls ∧
    (runStmt s st).closeCalls = st.closeCalls ∧
    (runStmt s st).released = st.released := by
  unfold runStmt
  split
  all_goals exact ⟨rfl, rfl, rfl⟩

theorem qframe_nextFn (s : Nat) (st : CP) :
    (nextFn s st).relCalls = st.relCalls ∧
    (nextFn s st).closeCalls = st.closeCalls ∧
    (nextFn s st).released = st.released := by
  unfold nextFn
  split
  · rcases qframe_callbacks _ with ⟨h1, h2, h3⟩
    rw [h1, h2, h3]
    split
    · rcases qframe_schedule _ with ⟨g1, g2, g3⟩
      rw [g1, g2, g3]
      exact ⟨rfl, rfl, rfl⟩
    · exact ⟨rfl, rfl, rfl⟩
  · exact ⟨rfl, rfl, rfl⟩

theorem qframe_step (st : CP) (a : CAct) (hg : a ≠ CAct.release)
    (hh : a ≠ CAct.close) :
    (step st a).relCalls = st.relCalls ∧
    (step st a).closeCalls = st.closeCalls ∧
    (step st a).released = st.released := by
  cases a with
  | exec sql p =>
    rcases step_exec_cases sql p st with h | h <;> rw [h]
    · exact ⟨rfl, rfl, rfl⟩
    · exact qframe_runIfNext _ _
  | resume r =>
    rcases step_resume_cases r st with h | ⟨-, h⟩ <;> rw [h]
    · exact ⟨rfl, rfl, rfl⟩
    · cases r
      · simp only [if_neg Bool.false_ne_true]
        unfold schedule clearError
        repeat' split
        all_goals exact ⟨rfl, rfl, rfl⟩
      · exact ⟨rfl, rfl, rfl⟩
  | rollback sp =>
    have hrs : (rollbackSteps sp st).relCalls = st.relCalls ∧
        (rollbackSteps sp st).closeCalls = st.closeCalls ∧
        (rollbackSteps sp st).released = st.released := by
      unfold rollbackSteps clearError
      dsimp only
      repeat' split
      all_goals exact ⟨rfl, rfl, rfl⟩
    rcases step_rollback_cases sp st with h | h <;> rw [h]
    · exact hrs
    · have hq := qframe_runIfNext (rollbackSteps sp st).nextId
        (execState (pgRollback sp) none (rollbackSteps sp st))
      exact ⟨hq.1.trans hrs.1, hq.2.1.trans hrs.2.1, hq.2.2.trans hrs.2.2⟩
  | beginT iso =>
    rcases step_beginT_cases iso st with h | h <;> rw [h]
    · exact ⟨rfl, rfl, rfl⟩
    · exact qframe_runIfNext _ _
  | commitT =>
    rcases step_commitT_cases st with h | h <;> rw [h]
    · exact ⟨rfl, rfl, rfl⟩
    · exact qframe_runIfNext _ _
  | saveT nm =>
    rcases step_saveT_cases nm st with h | h <;> rw [h]
    · exact ⟨rfl, rfl, rfl⟩
    · exact qframe_runIfNext _ _
  | release => exact absurd rfl hg
  | close => exact absurd rfl hh
  | resolveOk =>
    simp only [step]
    unfold resolveOk
    split
    · exact ⟨rfl, rfl, rfl⟩
    · rcases qframe_callbacks _ with ⟨h1, h2, h3⟩
      rw [h1, h2, h3]
      split
      · split
        · rcases qframe_runStmt _ _ with ⟨g1, g2, g3⟩
          rw [g1, g2, g3]
          exact ⟨rfl, rfl, rfl⟩
        · exact ⟨rfl, rfl, rfl⟩
      · exact ⟨rfl, rfl, rfl⟩
  | resolveErr e =>
    simp only [step]
    unfold resolveErr
    split
    · exact ⟨rfl, rfl, rfl⟩
    · rcases qframe_callbacks _ with ⟨h1, h2, h3⟩
      rw [h1, h2, h3]
      exact ⟨rfl, rfl, rfl⟩
  | row s =>
    simp only [step]
    unfold rowEv
    split
    · rcases qframe_nextFn s _ with ⟨h1, h2, h3⟩
      rw [h1, h2, h3]
      exact ⟨rfl, rfl, rfl⟩
    · exact ⟨rfl, rfl, rfl⟩
  | endD s =>
    simp only [step]
    unfold endEv
    split
    · rcases qframe_nextFn s _ with ⟨h1, h2, h3⟩
      rw [h1, h2, h3]
      exact ⟨rfl, rfl, rfl⟩
    · exact ⟨rfl, rfl, rfl⟩
  | errD s e =>
    simp only [step]
    unfold errEv
    split
    · rcases qframe_nextFn s _ with ⟨h1, h2, h3⟩
      rw [h1, h2, h3]
      split
      · exact ⟨rfl, rfl, rfl⟩
      · exact ⟨rfl, rfl, rfl⟩
    · exact ⟨rfl, rfl, rfl⟩
  | tick =>
    simp only [step]
    unfold tick
    split
    · exact ⟨rfl, rfl, rfl⟩
    · rcases qframe_runStmt _ _ with ⟨h1, h2, h3⟩
      rw [h1, h2, h3]
      exact ⟨rfl, rfl, rfl⟩
  | ready =>
    simp only [step]
    unfold readyA
    rcases qframe_callbacks _ with ⟨h1, h2, h3⟩
    rw [h1, h2, h3]
    exact ⟨rfl, rfl, rfl⟩
  | errorCb =>
    simp only [step]
    unfold errorA
    rcases qframe_callbacks _ with ⟨h1, h2, h3⟩
    rw [h1, h2, h3]
    exact ⟨rfl, rfl, rfl⟩

/-- C8: the first `release()` or `close()` call fires exactly one of the
releaser/closer actions exactly once; every later call of either is a
no-op; along any run the total number of releaser+closer invocations is 1
if the promise has been released and 0 otherwise. -/
theorem C8_release_close_once :
    (∀ acts : List CAct, (runCP acts).relCalls + (runCP acts).closeCalls
      = (if (runCP acts).released then 1 else 0)) ∧
    (∀ st : CP, st.released = true → step st CAct.release = st ∧
      step st CAct.close = st) ∧
    (∀ st : CP, st.released = false →
      (step st CAct.release).relCalls = st.relCalls + 1 ∧
      (step st CAct.release).closeCalls = st.closeCalls ∧
      (step st CAct.release).released = true ∧
      (step st CAct.close).closeCalls = st.closeCalls + 1 ∧
      (step st CAct.close).relCalls = st.relCalls ∧
      (step st CAct.close).released = true) ∧
    ((runCP [CAct.release, CAct.close, CAct.release]).relCalls = 1 ∧
      (runCP [CAct.release, CAct.close, CAct.release]).closeCalls = 0) := by
  refine ⟨?_, ?_, ?_, rfl, rfl⟩
  · have main : ∀ (acts : List CAct) (st : CP),
        st.relCalls + st.closeCalls = (if st.released then 1 else 0) →
        (acts.foldl step st).relCalls + (acts.foldl step st).closeCalls
          = (if (acts.foldl step st).released then 1 else 0) := by
      intro acts
      induction acts with
      | nil => exact fun st h => h
      | cons a rest ih =>
        intro st h
        refine ih (step st a) ?_
        by_cases har : a = CAct.release
        · subst har
          show (release st).relCalls + (release st).closeCalls
            = (if (release st).released = true then 1 else 0)
          unfold release
          cases hrel : st.released <;> simp [hrel] at h ⊢ <;> omega
        · by_cases hac : a = CAct.close
          · subst hac
            show (close st).relCalls + (close st).closeCalls
              = (if (close st).released = true then 1 else 0)
            unfold close
            cases hrel : st.released <;> simp [hrel] at h ⊢ <;> omega
          · rw [(qframe_step st a har hac).1, (qframe_step st a har hac).2.1,
              (qframe_step st a har hac).2.2]
            exact h
    intro acts
    exact main acts CP.init rfl
  · intro st hrel
    constructor
    · show release st = st
      unfold release
      rw [hrel]
      simp
    · show close st = st
      unfold close
      rw [hrel]
      simp
  · intro st hrel
    refine ⟨?_, ?_, ?_, ?_, ?_, ?_⟩ <;>
      first
        | (show (release st).relCalls = _
           unfold release
           rw [hrel]
           simp)
        | (show (release st).closeCalls = _
           unfold release
           rw [hrel]
           simp)
        | (show (release st).released = _
           unfold release
           rw [hrel]
           simp)
        | (show (close st).closeCalls = _
           unfold close
           rw [hrel]
           simp)
        | (show (close st).relCalls = _
           unfold close
           rw [hrel]
           simp)
        | (show (close st).released = _
           unfold close
           rw [hrel]
           simp)

/-! ## C1: behaviour of `exec` on a paused connection -/

theorem checkState_isSome (st : CP) (h : st.cpError ≠ none) :
    ∃ m, checkState st = some m := by
  rcases Option.ne_none_iff_exists.mp h with ⟨e, he⟩
  unfold checkState
  rw [← he]
  split
  all_goals exact ⟨_, rfl⟩

theorem pframe_callbacks (st : CP) :
    (callbacks st).cpError = st.cpError ∧ (callbacks st).resolved = st.resolved ∧
    (callbacks st).tickTasks = st.tickTasks ∧ (callbacks st).started = st.started ∧
    (callbacks st).queue = st.queue := by
  unfold callbacks
  dsimp only
  repeat' split
  all_goals exact ⟨rfl, rfl, rfl, rfl, rfl⟩

theorem pframe_nextFn (s : Nat) (st : CP) (h : st.cpError ≠ none) :
    (nextFn s st).cpError = st.cpError ∧ (nextFn s st).resolved = st.resolved ∧
    (nextFn s st).tickTasks = st.tickTasks ∧ (nextFn s st).started = st.started ∧
    (nextFn s st).queue = st.queue := by
  unfold nextFn
  dsimp only
  by_cases hp : st.pending = some s
  · rw [if_pos hp, if_neg h]
    rcases pframe_callbacks { st with pending := none } with ⟨h1, h2, h3, h4, h5⟩
    rw [h1, h2, h3, h4, h5]
    exact ⟨rfl, rfl, rfl, rfl, rfl⟩
  · rw [if_neg hp]
    exact ⟨rfl, rfl, rfl, rfl, rfl⟩

/-- One non-`resume`, non-`rollback` action on a paused, resolved connection
with an empty next-tick queue leaves the stored error, the statement queue,
the started list, the resolved flag and the (empty) tick queue unchanged. -/
theorem paused_step (st : CP) (a : CAct) (h1 : st.cpError ≠ none)
    (h2 : st.resolved = true) (h3 : st.tickTasks = [])
    (hr : ∀ r, a ≠ CAct.resume r) (hb : ∀ sp, a ≠ CAct.rollback sp) :
    (step st a).cpError = st.cpError ∧ (step st a).resolved = st.resolved ∧
    (step st a).tickTasks = st.tickTasks ∧ (step st a).started = st.started ∧
    (step st a).queue = st.queue := by
  cases a with
  | exec sql p =>
    obtain ⟨m, hm⟩ := checkState_isSome st h1
    rcases exec_cases sql p st with ⟨m2, -, he⟩ | ⟨hcs, -⟩
    · have hst : step st (CAct.exec sql p) = st := by simp only [step, he]
      rw [hst]
      exact ⟨rfl, rfl, rfl, rfl, rfl⟩
    · rw [hcs] at hm
      cases hm
  | resume r => exact absurd rfl (hr r)
  | rollback sp => exact absurd rfl (hb sp)
  | beginT iso =>
    have h' : ({ st with inTransaction := true } : CP).cpError ≠ none := h1
    obtain ⟨m, hm⟩ := checkState_isSome _ h'
    rcases exec_cases (pgBegin iso) none { st with inTransaction := true } with
      ⟨m2, -, he⟩ | ⟨hcs, -⟩
    · have hst : step st (CAct.beginT iso) = { st with inTransaction := true } := by
        simp only [step, beginT, he]
      rw [hst]
      exact ⟨rfl, rfl, rfl, rfl, rfl⟩
    · rw [hcs] at hm
      cases hm
  | commitT =>
    have h' : ({ st with inTransaction := false } : CP).cpError ≠ none := h1
    obtain ⟨m, hm⟩ := checkState_isSome _ h'
    rcases exec_cases pgCommit none { st with inTransaction := false } with
      ⟨m2, -, he⟩ | ⟨hcs, -⟩
    · have hst : step st CAct.commitT = { st with inTransaction := false } := by
        simp only [step, commitT, he]
      rw [hst]
      exact ⟨rfl, rfl, rfl, rfl, rfl⟩
    · rw [hcs] at hm
      cases hm
  | saveT nm =>
    obtain ⟨m, hm⟩ := checkState_isSome st h1
    rcases exec_cases (pgSave nm) none st with ⟨m2, -, he⟩ | ⟨hcs, -⟩
    · have hst : step st (CAct.saveT nm) = st := by simp only [step, saveT, he]
      rw [hst]
      exact ⟨rfl, rfl, rfl, rfl, rfl⟩
    · rw [hcs] at hm
      cases hm
  | release =>
    simp only [step]
    unfold release
    split
    all_goals exact ⟨rfl, rfl, rfl, rfl, rfl⟩
  | close =>
    simp only [step]
    unfold close
    split
    all_goals exact ⟨rfl, rfl, rfl, rfl, rfl⟩
  | resolveOk =>
    simp only [step]
    unfold resolveOk
    rw [if_pos h2]
    exact ⟨rfl, rfl, rfl, rfl, rfl⟩
  | resolveErr e =>
    simp only [step]
    unfold resolveErr
    rw [if_pos h2]
    exact ⟨rfl, rfl, rfl, rfl, rfl⟩
  | row s =>
    simp only [step]
    unfold rowEv
    split
    · exact pframe_nextFn s _ h1
    · exact ⟨rfl, rfl, rfl, rfl, rfl⟩
  | endD s =>
    simp only [step]
    unfold endEv
    split
    · exact pframe_nextFn s _ h1
    · exact ⟨rfl, rfl, rfl, rfl, rfl⟩
  | errD s e =>
    simp only [step]
    unfold errEv
    dsimp only
    by_cases hg : s ∈ st.started ∧ s ∉ st.finishedD
    · rw [if_pos hg, if_neg h1]
      exact pframe_nextFn s _ h1
    · rw [if_neg hg]
      exact ⟨rfl, rfl, rfl, rfl, rfl⟩
  | tick =>
    simp only [step]
    unfold tick
    rw [h3]
    exact ⟨rfl, rfl, h3, rfl, rfl⟩
  | ready =>
    simp only [step]
    unfold readyA
    rcases pframe_callbacks { st with readyCb := true } with ⟨g1, g2, g3, g4, g5⟩
    rw [g1, g2, g3, g4, g5]
    exact ⟨rfl, rfl, rfl, rfl, rfl⟩
  | errorCb =>
    simp only [step]
    unfold errorA
    rcases pframe_callbacks { st with errorCb := true } with ⟨g1, g2, g3, g4, g5⟩
    rw [g1, g2, g3, g4, g5]
    exact ⟨rfl, rfl, rfl, rfl, rfl⟩

/-- C1 counterexample: a concrete paused connection (one statement, one
driver error) on which `exec` of a new statement throws — contradicting the
claim's "calling exec(sql, params) does not throw".  The thrown message is
`_checkState`'s paused diagnostic. -/
theorem C1_exec_paused_counterexample :
    (runCP [CAct.resolveOk, CAct.exec "A" none, CAct.errD 0 "boom"]).cpError
        = some (wrapMsg "A" none "boom") ∧
    (runCP [CAct.resolveOk, CAct.exec "A" none, CAct.errD 0 "boom"]).released
        = false ∧
    exec "B" none (runCP [CAct.resolveOk, CAct.exec "A" none, CAct.errD 0 "boom"])
      = Except.error
          ("Connection is paused due to an error:\n" ++ wrapMsg "A" none "boom") :=
  ⟨rfl, rfl, rfl⟩

/-- C1 (amended): on a Paused Connection Promise (stored execution error,
not released) `exec` THROWS the paused diagnostic synchronously — the new
statement is not enqueued; and while the connection stays paused and
resolved with nothing already ticked, no action other than `resume` or
`rollback` changes the statement queue, the started list or the stored
error, so every previously queued statement remains un-executed. -/
theorem C1_exec_paused :
    (∀ (st : CP) (sql : String) (p : Option (List String)) (e : String),
      st.cpError = some e → st.released = false →
      exec sql p st
        = Except.error ("Connection is paused due to an error:\n" ++ e)) ∧
    (∀ (st : CP) (acts : List CAct), st.cpError ≠ none → st.resolved = true →
      st.tickTasks = [] →
      (∀ a ∈ acts, (∀ r, a ≠ CAct.resume r) ∧ (∀ sp, a ≠ CAct.rollback sp)) →
      (runFrom st acts).cpError = st.cpError ∧
      (runFrom st acts).started = st.started ∧
      (runFrom st acts).queue = st.queue) := by
  constructor
  · intro st sql p e h hrel
    unfold exec checkState
    rw [h, hrel]
    rfl
  · intro st acts
    induction acts generalizing st with
    | nil => exact fun _ _ _ _ => ⟨rfl, rfl, rfl⟩
    | cons a rest ih =>
      intro h1 h2 h3 hacts
      obtain ⟨p1, p2, p3, p4, p5⟩ :=
        paused_step st a h1 h2 h3 (hacts a (List.mem_cons_self a rest)).1
          (hacts a (List.mem_cons_self a rest)).2
      have hrec := ih (step st a) (p1 ▸ h1) (p2.trans h2) (p3.trans h3)
        (fun b hb => hacts b (List.mem_cons_of_mem a hb))
      refine ⟨?_, ?_, ?_⟩
      · exact (hrec.1.trans p1)
      · exact (hrec.2.1.trans p4)
      · exact (hrec.2.2.trans p5)

/-- Witness for the amended C1 at a concrete paused state. -/
theorem C1_exec_paused_witness :
    exec "B" none (runCP [CAct.resolveOk, CAct.exec "A" none, CAct.errD 0 "boom"])
        = Except.error
            ("Connection is paused due to an error:\n" ++ wrapMsg "A" none "boom") ∧
    (runFrom (runCP [CAct.resolveOk, CAct.exec "A" none, CAct.errD 0 "boom"])
        [CAct.exec "B" none, CAct.tick]).queue
      = (runCP [CAct.resolveOk, CAct.exec "A" none, CAct.errD 0 "boom"]).queue :=
  ⟨C1_exec_paused.1 _ "B" none (wrapMsg "A" none "boom") rfl rfl,
   (C1_exec_paused.2 _ [CAct.exec "B" none, CAct.tick] (by decide) rfl rfl
      (by
        intro a ha
        rcases List.mem_cons.mp ha with rfl | ha
        · exact ⟨fun r => by simp, fun sp => by simp⟩
        · rcases List.mem_cons.mp ha with rfl | ha
          · exact ⟨fun r => by simp, fun sp => by simp⟩
          · cases ha)).2.2⟩

/-- Witness for C8 at a concrete state. -/
theorem C8_release_close_once_witness :
    (step { CP.init with released := true } CAct.release
        = { CP.init with released := true } ∧
      step { CP.init with released := true } CAct.close
        = { CP.init with released := true }) ∧
    (step CP.init CAct.release).relCalls = CP.init.relCalls + 1 :=
  ⟨C8_release_close_once.2.1 { CP.init with released := true } rfl,
   (C8_release_close_once.2.2.1 CP.init rfl).1⟩

/-! ## C3 / C4: discarded statements never execute -/

/-- A statement id that is in none of the places from which `_run` can be
reached (queue, next-tick queue, already started) and is older than every
id yet to be created.  Such an id can never execute. -/
def DeadIn (s : Nat) (st : CP) : Prop :=
  s ∉ st.queue ∧ s ∉ st.tickTasks ∧ s ∉ st.started ∧ s < st.nextId

theorem dead_runStmt {s t : Nat} {st : CP} (hne : s ≠ t) (hd : DeadIn s st) :
    DeadIn s (runStmt t st) := by
  unfold runStmt
  split
  · exact hd
  · obtain ⟨h1, h2, h3, h4⟩ := hd
    refine ⟨h1, h2, ?_, h4⟩
    intro hmem
    rcases List.mem_append.mp hmem with hm | hm
    · exact h3 hm
    · exact hne (List.mem_singleton.mp hm)

theorem dead_schedule {s : Nat} {st : CP} (hd : DeadIn s st) :
    DeadIn s (schedule st) := by
  unfold schedule
  split
  · exact hd
  · next n rest heq =>
    obtain ⟨h1, h2, h3, h4⟩ := hd
    rw [heq] at h1
    simp only [List.mem_cons, not_or] at h1
    refine ⟨h1.2, ?_, h3, h4⟩
    intro hmem
    rcases List.mem_append.mp hmem with hm | hm
    · exact h2 hm
    · exact h1.1 (List.mem_singleton.mp hm)

theorem dead_callbacks {s : Nat} {st : CP} (hd : DeadIn s st) :
    DeadIn s (callbacks st) := by
  unfold callbacks
  dsimp only
  repeat' split
  all_goals exact hd

theorem dead_nextFn {s t : Nat} {st : CP} (hd : DeadIn s st) :
    DeadIn s (nextFn t st) := by
  unfold nextFn
  dsimp only
  by_cases hp : st.pending = some t
  · rw [if_pos hp]
    apply dead_callbacks
    by_cases hc : st.cpError = none
    · rw [if_pos hc]
      exact dead_schedule hd
    · rw [if_neg hc]
      exact hd
  · rw [if_neg hp]
    exact hd

theorem dead_runIfNext {s t : Nat} {st : CP} (hd : DeadIn s st) :
    DeadIn s (runIfNext t st) := by
  unfold runIfNext
  split
  · next hcond =>
    apply dead_runStmt
    · intro hst
      subst hst
      exact hd.1 (List.mem_of_mem_head? (Option.mem_def.mpr hcond.2.2))
    · obtain ⟨h1, h2, h3, h4⟩ := hd
      exact ⟨fun hm => h1 (List.tail_subset _ hm), h2, h3, h4⟩
  · exact hd

theorem dead_execState {s : Nat} {st : CP} {sql : String}
    {p : Option (List String)} (hd : DeadIn s st) :
    DeadIn s (execState sql p st) := by
  obtain ⟨h1, h2, h3, h4⟩ := hd
  refine ⟨?_, h2, h3, Nat.lt_succ_of_lt h4⟩
  intro hm
  rcases List.mem_append.mp hm with hm | hm
  · exact h1 hm
  · exact Nat.lt_irrefl _ (List.mem_singleton.mp hm ▸ h4)

theorem dead_rollbackSteps {s : Nat} {st : CP} {sp : Option String}
    (hd : DeadIn s st) : DeadIn s (rollbackSteps sp st) := by
  obtain ⟨h1, h2, h3, h4⟩ := hd
  unfold rollbackSteps clearError
  dsimp only
  repeat' split
  all_goals first
    | exact ⟨h1, h2, h3, h4⟩
    | exact ⟨by simp, h2, h3, h4⟩

theorem dead_resolveOk {s : Nat} {st : CP} (hd : DeadIn s st) :
    DeadIn s (resolveOk st) := by
  unfold resolveOk
  dsimp only
  by_cases hres : st.resolved = true
  · rw [if_pos hres]
    exact hd
  · rw [if_neg hres]
    apply dead_callbacks
    split
    · next n rest heq =>
      split
      · obtain ⟨h1, h2, h3, h4⟩ := hd
        rw [heq] at h1
        simp only [List.mem_cons, not_or] at h1
        exact dead_runStmt h1.1 ⟨h1.2, h2, h3, h4⟩
      · exact hd
    · exact hd

/-- No action of any kind can revive a dead statement id. -/
theorem dead_step (s : Nat) (st : CP) (a : CAct) (hd : DeadIn s st) :
    DeadIn s (step st a) := by
  cases a with
  | exec sql p =>
    rcases step_exec_cases sql p st with h | h <;> rw [h]
    · exact hd
    · exact dead_runIfNext (dead_execState hd)
  | resume r =>
    rcases step_resume_cases r st with h | ⟨-, h⟩ <;> rw [h]
    · exact hd
    · cases r
      · simp only [if_neg Bool.false_ne_true]
        exact dead_schedule hd
      · simp only [if_pos rfl]
        obtain ⟨h1, h2, h3, h4⟩ := hd
        exact ⟨by simp, h2, h3, h4⟩
  | rollback sp =>
    have hrs : DeadIn s (rollbackSteps sp st) := dead_rollbackSteps hd
    rcases step_rollback_cases sp st with h | h <;> rw [h]
    · exact hrs
    · exact dead_runIfNext (dead_execState hrs)
  | beginT iso =>
    rcases step_beginT_cases iso st with h | h <;> rw [h]
    · exact hd
    · exact dead_runIfNext (dead_execState hd)
  | commitT =>
    rcases step_commitT_cases st with h | h <;> rw [h]
    · exact hd
    · exact dead_runIfNext (dead_execState hd)
  | saveT nm =>
    rcases step_saveT_cases nm st with h | h <;> rw [h]
    · exact hd
    · exact dead_runIfNext (dead_execState hd)
  | release =>
    show DeadIn s (release st)
    unfold release
    split
    all_goals exact hd
  | close =>
    show DeadIn s (close st)
    unfold close
    split
    all_goals exact hd
  | resolveOk =>
    show DeadIn s (resolveOk st)
    exact dead_resolveOk hd
  | resolveErr e =>
    show DeadIn s (resolveErr e st)
    unfold resolveErr
    split
    · exact hd
    · exact dead_callbacks hd
  | row s2 =>
    show DeadIn s (rowEv s2 st)
    unfold rowEv
    split
    · exact dead_nextFn hd
    · exact hd
  | endD s2 =>
    show DeadIn s (endEv s2 st)
    unfold endEv
    split
    · exact dead_nextFn hd
    · exact hd
  | errD s2 e =>
    show DeadIn s (errEv s2 e st)
    unfold errEv
    dsimp only
    by_cases hg : s2 ∈ st.started ∧ s2 ∉ st.finishedD
    · rw [if_pos hg]
      apply dead_nextFn
      split
      · exact hd
      · exact hd
    · rw [if_neg hg]
      exact hd
  | tick =>
    show DeadIn s (tick st)
    unfold tick
    split
    · exact hd
    · next t rest heq =>
      obtain ⟨h1, h2, h3, h4⟩ := hd
      rw [heq] at h2
      simp only [List.mem_cons, not_or] at h2
      exact dead_runStmt h2.1 ⟨h1, h2.2, h3, h4⟩
  | ready =>
    show DeadIn s (readyA st)
    unfold readyA
    exact dead_callbacks hd
  | errorCb =>
    show DeadIn s (errorA st)
    unfold errorA
    exact dead_callbacks hd

theorem dead_run (s : Nat) (acts : List CAct) :
    ∀ st : CP, DeadIn s st → DeadIn s (runFrom st acts) := by
  induction acts with
  | nil => exact fun _ hd => hd
  | cons a rest ih => exact fun st hd => ih (step st a) (dead_step s st a hd)

/-- C4: `resume` on an un-paused connection throws the usage error;
`resume(true)` clears the error and empties the queue, and no statement
queued at the time of the call ever starts afterwards; `resume()` clears
the error and re-schedules the remaining queue; two concrete runs show a
statement submitted after `resume(true)` running normally and `resume()`
continuing the old queue. -/
theorem C4_resume :
    (∀ (st : CP) (r : Bool), st.cpError = none →
      resume r st = Except.error "Connection is not currently paused") ∧
    (∀ (st : CP) (e : String), st.cpError = some e →
      resume true st = Except.ok { clearError st with queue := [] }) ∧
    (∀ (st : CP) (e : String) (s : Nat) (acts : List CAct),
      st.cpError = some e → s ∈ st.queue → s ∉ st.tickTasks →
      s ∉ st.started → s < st.nextId →
      s ∉ (runFrom (step st (CAct.resume true)) acts).started) ∧
    (∀ (st : CP) (e : String), st.cpError = some e →
      resume false st = Except.ok (schedule (clearError st))) ∧
    (runCP [CAct.resolveOk, CAct.exec "A" none, CAct.exec "B" none,
        CAct.errD 0 "boom", CAct.resume true, CAct.exec "C" none]).started
      = [0, 2] ∧
    (runCP [CAct.resolveOk, CAct.exec "A" none, CAct.exec "B" none,
        CAct.errD 0 "boom", CAct.resume false, CAct.tick]).started = [0, 1] := by
  refine ⟨?_, ?_, ?_, ?_, rfl, rfl⟩
  · intro st r h
    obtain ⟨q, conn, res, ce, rel, pend, intx, rcb, rh, ecb, eh, tt, nid,
      strt, fin, rc, cc, stm, tr⟩ := st
    dsimp only at h
    subst h
    rfl
  · intro st e h
    obtain ⟨q, conn, res, ce, rel, pend, intx, rcb, rh, ecb, eh, tt, nid,
      strt, fin, rc, cc, stm, tr⟩ := st
    dsimp only at h
    subst h
    rfl
  · intro st e s acts h hq ht hs hn
    have hstep : step st (CAct.resume true) = { clearError st with queue := [] } := by
      obtain ⟨q, conn, res, ce, rel, pend, intx, rcb, rh, ecb, eh, tt, nid,
        strt, fin, rc, cc, stm, tr⟩ := st
      dsimp only at h
      subst h
      rfl
    rw [hstep]
    have hd : DeadIn s { clearError st with queue := [] } :=
      ⟨List.not_mem_nil s, ht, hs, hn⟩
    exact (dead_run s acts _ hd).2.2.1
  · intro st e h
    obtain ⟨q, conn, res, ce, rel, pend, intx, rcb, rh, ecb, eh, tt, nid,
      strt, fin, rc, cc, stm, tr⟩ := st
    dsimp only at h
    subst h
    rfl

/-- Witness for C4 at concrete states: the usage throw on a fresh
connection, and the discarded statement 1 never starting after
`resume(true)` on a concrete paused connection. -/
theorem C4_resume_witness :
    resume true CP.init = Except.error "Connection is not currently paused" ∧
    1 ∉ (runFrom (step (runCP [CAct.resolveOk, CAct.exec "A" none,
        CAct.exec "B" none, CAct.errD 0 "boom"]) (CAct.resume true))
        [CAct.tick, CAct.exec "C" none]).started :=
  ⟨C4_resume.1 CP.init true rfl,
   C4_resume.2.2.1 _ (wrapMsg "A" none "boom") 1 [CAct.tick, CAct.exec "C" none]
     rfl (by decide) (by decide) (by decide) (by decide)⟩

/-- The state `rollback()`'s synchronous error-clearing step leaves behind
on a paused connection: error cleared, transaction flag down, queue
emptied. -/
def rbState (st : CP) : CP :=
  { st with
    inTransaction := false
    cpError := none
    errorHandled := false
    queue := [] }

theorem runIfNext_fields (t : Nat) (st : CP) :
    (runIfNext t st).cpError = st.cpError ∧
    (runIfNext t st).inTransaction = st.inTransaction ∧
    (runIfNext t st).released = st.released ∧
    (runIfNext t st).tickTasks = st.tickTasks ∧
    (runIfNext t st).nextId = st.nextId := by
  unfold runIfNext runStmt
  repeat' split
  all_goals exact ⟨rfl, rfl, rfl, rfl, rfl⟩

theorem runIfNext_queue (t : Nat) (st : CP) :
    (runIfNext t st).queue = st.queue ∨
    (runIfNext t st).queue = st.queue.tail := by
  unfold runIfNext runStmt
  repeat' split
  all_goals first
    | exact Or.inl rfl
    | exact Or.inr rfl

/-- C3: `rollback()` with no savepoint on a paused, unreleased connection
synchronously clears the stored error and the in-transaction flag,
discards every previously queued statement (only the rollback SQL itself
can remain queued), leaves the connection accepting new work
(`_checkState` passes), and no statement queued before the call ever
starts afterwards. -/
theorem C3_rollback_paused (st : CP) (e : String) (h : st.cpError = some e)
    (hrel : st.released = false) :
    (step st (CAct.rollback none)).cpError = none ∧
    (step st (CAct.rollback none)).inTransaction = false ∧
    (∀ s, s ∈ (step st (CAct.rollback none)).queue → s = st.nextId) ∧
    checkState (step st (CAct.rollback none)) = none ∧
    (∀ (s : Nat) (acts : List CAct), s ∈ st.queue → s ∉ st.tickTasks →
      s ∉ st.started → s < st.nextId →
      s ∉ (runFrom (step st (CAct.rollback none)) acts).started) := by
  have hstep : step st (CAct.rollback none)
      = runIfNext st.nextId (execState "ROLLBACK" none (rbState st)) := by
    unfold rbState
    obtain ⟨q, conn, res, ce, rel, pend, intx, rcb, rh, ecb, eh, tt, nid,
      strt, fin, rc, cc, stm, tr⟩ := st
    dsimp only at h hrel
    subst h
    subst hrel
    rfl
  have hcp : (step st (CAct.rollback none)).cpError = none := by
    rw [hstep, (runIfNext_fields _ _).1]
    rfl
  have hre : (step st (CAct.rollback none)).released = false := by
    rw [hstep, (runIfNext_fields _ _).2.2.1]
    exact hrel
  refine ⟨hcp, ?_, ?_, ?_, ?_⟩
  · rw [hstep, (runIfNext_fields _ _).2.1]
    rfl
  · intro s hm
    rw [hstep] at hm
    rcases runIfNext_queue st.nextId (execState "ROLLBACK" none (rbState st))
      with hq | hq
    · rw [hq] at hm
      simpa [execState, rbState] using hm
    · rw [hq] at hm
      simp [execState, rbState] at hm
  · simp [checkState, hcp, hre]
  · intro s acts hq ht hs hn
    rw [hstep]
    have hd : DeadIn s (rbState st) := ⟨List.not_mem_nil s, ht, hs, hn⟩
    exact (dead_run s acts _ (dead_runIfNext (dead_execState hd))).2.2.1

/-- Witness for C3 at a concrete paused connection: error cleared and the
discarded statement 1 never starts. -/
theorem C3_rollback_paused_witness :
    (step (runCP [CAct.resolveOk, CAct.exec "A" none, CAct.exec "B" none,
        CAct.errD 0 "boom"]) (CAct.rollback none)).cpError = none ∧
    1 ∉ (runFrom (step (runCP [CAct.resolveOk, CAct.exec "A" none,
        CAct.exec "B" none, CAct.errD 0 "boom"]) (CAct.rollback none))
        [CAct.tick, CAct.endD 2]).started :=
  ⟨(C3_rollback_paused _ (wrapMsg "A" none "boom") rfl rfl).1,
   (C3_rollback_paused _ (wrapMsg "A" none "boom") rfl rfl).2.2.2.2 1
     [CAct.tick, CAct.endD 2] (by decide) (by decide) (by decide) (by decide)⟩

/-! ## C2: ordering of driver-level statement executions -/

/-- The statement ids of the `execStart` events of a trace, in trace
order.  Ids are allocated in submission order, so the trace realises
submission order exactly when this list is strictly increasing. -/
def startedIds (tr : List CEv) : List Nat :=
  tr.filterMap fun ev =>
    match ev with
    | CEv.execStart s => some s
    | _ => none

/-- Whether the trace contains any driver callback (row, end or error)
for statement `u`. -/
def hasCb (u : Nat) (tr : List CEv) : Bool :=
  tr.any fun ev => ev == CEv.rowF u || ev == CEv.endF u || ev == CEv.errF u

/-- Every `execStart` of the trace happens only after every statement
started earlier has fired at least one driver callback. -/
def TraceOK (tr : List CEv) : Prop :=
  ∀ pre s post, tr = pre ++ CEv.execStart s :: post →
    ∀ t ∈ startedIds pre, hasCb t pre = true

/-- The actions of a plain statement-execution run: connection
resolution, `exec`, the driver callbacks, and next-tick turns. -/
def plainAct : CAct → Bool
  | CAct.resolveOk | CAct.exec _ _ | CAct.row _ | CAct.endD _
  | CAct.errD _ _ | CAct.tick => true
  | _ => false

/-- `exec` is only ever called when the next-tick queue is empty, i.e.
never inside the window between `_schedule` and the scheduled `_run`. -/
def execsOutsideWindow (acts : List CAct) (st : CP) : Bool :=
  match acts with
  | [] => true
  | a :: rest =>
    (match a with
     | CAct.exec _ _ => st.tickTasks.isEmpty
     | _ => true) && execsOutsideWindow rest (step st a)

theorem startedIds_append (tr l : List CEv) :
    startedIds (tr ++ l) = startedIds tr ++ startedIds l :=
  List.filterMap_append tr l _

theorem startedIds_single_other (ev : CEv) (hev : ∀ s, ev ≠ CEv.execStart s) :
    startedIds [ev] = [] := by
  cases ev
  · exact absurd rfl (hev _)
  all_goals rfl

theorem hasCb_append (u : Nat) (tr l : List CEv) :
    hasCb u (tr ++ l) = (hasCb u tr || hasCb u l) :=
  List.any_append

theorem hasCb_mono (u : Nat) (tr l : List CEv) (h : hasCb u tr = true) :
    hasCb u (tr ++ l) = true := by
  rw [hasCb_append, h, Bool.true_or]

theorem hasCb_rowF (u : Nat) (tr : List CEv) :
    hasCb u (tr ++ [CEv.rowF u]) = true := by
  rw [hasCb_append]
  simp [hasCb]

theorem hasCb_endF (u : Nat) (tr : List CEv) :
    hasCb u (tr ++ [CEv.endF u]) = true := by
  rw [hasCb_append]
  simp [hasCb]

theorem hasCb_errF (u : Nat) (tr : List CEv) :
    hasCb u (tr ++ [CEv.errF u]) = true := by
  rw [hasCb_append]
  simp [hasCb]

theorem snoc_eq_append_cons {α : Type} (tr : List α) (ev x : α)
    (pre post : List α) (h : tr ++ [ev] = pre ++ x :: post) :
    (pre = tr ∧ x = ev ∧ post = []) ∨
    (∃ post2, post = post2 ++ [ev] ∧ tr = pre ++ x :: post2) := by
  rcases post.eq_nil_or_concat with rfl | ⟨post2, e, rfl⟩
  · left
    have h2 : tr ++ [ev] = pre ++ [x] := h
    obtain ⟨h3, h4⟩ := List.append_inj' h2 rfl
    injection h4 with h5 h6
    exact ⟨h3.symm, h5.symm, rfl⟩
  · right
    have h2 : tr ++ [ev] = (pre ++ x :: post2) ++ [e] := by
      rw [h, List.concat_eq_append]
      simp
    obtain ⟨h3, h4⟩ := List.append_inj' h2 rfl
    injection h4 with h5 h6
    refine ⟨post2, ?_, h3⟩
    rw [List.concat_eq_append, h5]

theorem TraceOK_nil : TraceOK [] := by
  intro pre s post h t ht
  cases pre <;> simp at h

theorem TraceOK_append_other (tr : List CEv) (ev : CEv) (h : TraceOK tr)
    (hev : ∀ s, ev ≠ CEv.execStart s) : TraceOK (tr ++ [ev]) := by
  intro pre s post heq
  rcases snoc_eq_append_cons tr ev _ pre post heq with ⟨-, hx, -⟩ | ⟨post2, -, htr⟩
  · exact absurd hx.symm (hev s)
  · exact h pre s post2 htr

theorem TraceOK_append_start (tr : List CEv) (s : Nat) (h : TraceOK tr)
    (hall : ∀ t ∈ startedIds tr, hasCb t tr = true) :
    TraceOK (tr ++ [CEv.execStart s]) := by
  intro pre s2 post heq
  rcases snoc_eq_append_cons tr (CEv.execStart s) _ pre post heq with
    ⟨hpre, -, -⟩ | ⟨post2, -, htr⟩
  · subst hpre
    exact hall
  · exact h pre s2 post2 htr

/-- The inductive invariant of a plain-action run whose `exec` calls all
happen outside the next-tick window: the pending work (next-tick queue
then statement queue) is strictly increasing and entirely newer than all
started statements, started statements are recorded in the trace in
strictly increasing order, every started statement is either the pending
one or has already fired a callback, the next-tick queue holds at most
one task and forces no pending statement, and the trace never starts a
statement while an earlier-started one is still callback-silent. -/
structure IC2 (st : CP) : Prop where
  i1 : (st.tickTasks ++ st.queue).Pairwise (· < ·)
  i2 : ∀ t ∈ st.tickTasks ++ st.queue, ∀ u ∈ st.started, u < t
  i3 : ∀ t ∈ st.tickTasks ++ st.queue, t < st.nextId
  i3s : ∀ u ∈ st.started, u < st.nextId
  i4 : st.started = startedIds st.trace
  i5 : st.started.Pairwise (· < ·)
  i6 : ∀ u ∈ st.started, st.pending = some u ∨ hasCb u st.trace = true
  w2 : st.tickTasks ≠ [] → st.pending = none
  w2b : st.tickTasks.length ≤ 1
  i0 : st.connection = st.resolved
  i8 : st.resolved = false →
    st.started = [] ∧ st.pending = none ∧ st.tickTasks = []
  iB : TraceOK st.trace

theorem IC2_congr {st st2 : CP} (hq : st2.queue = st.queue)
    (ht : st2.tickTasks = st.tickTasks) (hs : st2.started = st.started)
    (hp : st2.pending = st.pending) (htr : st2.trace = st.trace)
    (hn : st2.nextId = st.nextId) (hr : st2.resolved = st.resolved)
    (hc : st2.connection = st.connection) (h : IC2 st) : IC2 st2 := by
  obtain ⟨i1, i2, i3, i3s, i4, i5, i6, w2, w2b, i0, i8, iB⟩ := h
  refine ⟨?_, ?_, ?_, ?_, ?_, ?_, ?_, ?_, ?_, ?_, ?_, ?_⟩ <;>
    simp only [hq, ht, hs, hp, htr, hn, hr, hc]
  exacts [i1, i2, i3, i3s, i4, i5, i6, w2, w2b, i0, i8, iB]

theorem cframe_callbacks (st : CP) :
    (callbacks st).queue = st.queue ∧
    (callbacks st).tickTasks = st.tickTasks ∧
    (callbacks st).started = st.started ∧
    (callbacks st).pending = st.pending ∧
    (callbacks st).trace = st.trace ∧
    (callbacks st).nextId = st.nextId ∧
    (callbacks st).resolved = st.resolved ∧
    (callbacks st).connection = st.connection := by
  unfold callbacks
  dsimp only
  repeat' split
  all_goals exact ⟨rfl, rfl, rfl, rfl, rfl, rfl, rfl, rfl⟩

theorem IC2_callbacks {st : CP} (h : IC2 st) : IC2 (callbacks st) := by
  obtain ⟨c1, c2, c3, c4, c5, c6, c7, c8⟩ := cframe_callbacks st
  exact IC2_congr c1 c2 c3 c4 c5 c6 c7 c8 h

/-- Appending one non-`execStart` event to the trace while all invariant
fields other than the trace are unchanged preserves the invariant. -/
theorem IC2_append_other {st st2 : CP} (h : IC2 st) (ev : CEv)
    (hev : ∀ s, ev ≠ CEv.execStart s)
    (htr : st2.trace = st.trace ++ [ev])
    (hq : st2.queue = st.queue) (ht : st2.tickTasks = st.tickTasks)
    (hs : st2.started = st.started) (hp : st2.pending = st.pending)
    (hn : st2.nextId = st.nextId) (hr : st2.resolved = st.resolved)
    (hc : st2.connection = st.connection) : IC2 st2 := by
  obtain ⟨i1, i2, i3, i3s, i4, i5, i6, w2, w2b, i0, i8, iB⟩ := h
  refine ⟨?_, ?_, ?_, ?_, ?_, ?_, ?_, ?_, ?_, ?_, ?_, ?_⟩ <;>
    simp only [hq, ht, hs, hp, htr, hn, hr, hc]
  · exact i1
  · exact i2
  · exact i3
  · exact i3s
  · rw [startedIds_append, startedIds_single_other ev hev, List.append_nil]
    exact i4
  · exact i5
  · intro u hu
    rcases i6 u hu with h6 | h6
    · exact Or.inl h6
    · exact Or.inr (hasCb_mono u _ _ h6)
  · exact w2
  · exact w2b
  · exact i0
  · exact i8
  · exact TraceOK_append_other _ ev iB hev

theorem IC2_schedule {st : CP} (h : IC2 st) (hp : st.pending = none)
    (htt : st.tickTasks = []) (hres : st.resolved = true) :
    IC2 (schedule st) := by
  unfold schedule
  split
  · exact h
  · next n rest heq =>
    refine ⟨?_, ?_, ?_, h.i3s, h.i4, h.i5, h.i6, fun _ => hp, ?_, h.i0, ?_, h.iB⟩
    · have old := h.i1
      rw [htt, heq] at old
      simpa [htt] using old
    · intro t2 hm u hu
      rw [htt] at hm
      refine h.i2 t2 ?_ u hu
      rw [htt, heq]
      simpa using hm
    · intro t2 hm
      rw [htt] at hm
      refine h.i3 t2 ?_
      rw [htt, heq]
      simpa using hm
    · simp [htt]
    · intro hr
      rw [hres] at hr
      cases hr

theorem IC2_nextFn {st : CP} (s2 : Nat) (h : IC2 st)
    (hcb : hasCb s2 st.trace = true) : IC2 (nextFn s2 st) := by
  unfold nextFn
  dsimp only
  by_cases hp : st.pending = some s2
  · rw [if_pos hp]
    have htt : st.tickTasks = [] := by
      by_cases ht : st.tickTasks = []
      · exact ht
      · rw [h.w2 ht] at hp
        cases hp
    have hres : st.resolved = true := by
      by_cases hr : st.resolved = true
      · exact hr
      · rw [(h.i8 (Bool.not_eq_true _ ▸ hr : st.resolved = false)).2.1] at hp
        cases hp
    have h1 : IC2 { st with pending := none } := by
      refine ⟨h.i1, h.i2, h.i3, h.i3s, h.i4, h.i5, ?_, fun _ => rfl, h.w2b,
        h.i0, ?_, h.iB⟩
      · intro u hu
        rcases h.i6 u hu with h6 | h6
        · rw [hp] at h6
          exact Or.inr (Option.some.inj h6 ▸ hcb)
        · exact Or.inr h6
      · intro hr
        rw [hres] at hr
        cases hr
    apply IC2_callbacks
    split
    · exact IC2_schedule h1 rfl htt hres
    · exact h1
  · rw [if_neg hp]
    exact h

/-- Starting statement `t` by `_run` preserves the invariant when nothing
is pending, the next-tick queue is empty, `t` is newer than everything
started and older than everything still queued. -/
theorem IC2_runStmt_start {st : CP} (t : Nat) (h : IC2 st)
    (hp : st.pending = none) (htt : st.tickTasks = [])
    (hall : ∀ u ∈ st.started, u < t)
    (ht2 : ∀ t2 ∈ st.tickTasks ++ st.queue, t < t2)
    (hn : t < st.nextId) (hres : st.resolved = true) :
    IC2 (runStmt t st) := by
  unfold runStmt
  split
  · exact h
  · refine ⟨h.i1, ?_, h.i3, ?_, ?_, ?_, ?_, ?_, h.w2b, h.i0, ?_, ?_⟩
    · intro t2 hm u hu
      rcases List.mem_append.mp hu with hu | hu
      · exact h.i2 t2 hm u hu
      · rw [List.mem_singleton.mp hu]
        exact ht2 t2 hm
    · intro u hu
      rcases List.mem_append.mp hu with hu | hu
      · exact h.i3s u hu
      · rw [List.mem_singleton.mp hu]
        exact hn
    · rw [startedIds_append, h.i4]
      rfl
    · refine List.pairwise_append.mpr ⟨h.i5, List.pairwise_singleton _ _, ?_⟩
      intro x hx y hy
      rw [List.mem_singleton.mp hy]
      exact hall x hx
    · intro u hu
      rcases List.mem_append.mp hu with hu | hu
      · rcases h.i6 u hu with h6 | h6
        · rw [hp] at h6
          cases h6
        · exact Or.inr (hasCb_mono u _ _ h6)
      · rw [List.mem_singleton.mp hu]
        exact Or.inl rfl
    · intro hne
      exact absurd htt hne
    · intro hr
      rw [hres] at hr
      cases hr
    · refine TraceOK_append_start _ t h.iB ?_
      intro u hu
      rw [← h.i4] at hu
      rcases h.i6 u hu with h6 | h6
      · rw [hp] at h6
        cases h6
      · exact h6

/-- The queue extension `exec` performs preserves the invariant when the
next-tick queue is empty. -/
theorem IC2_execState {st : CP} (sql : String) (p : Option (List String))
    (h : IC2 st) : IC2 (execState sql p st) := by
  refine ⟨?_, ?_, ?_, ?_, h.i4, h.i5, h.i6, h.w2, h.w2b, h.i0, ?_, h.iB⟩
  · have : st.tickTasks ++ (st.queue ++ [st.nextId])
        = (st.tickTasks ++ st.queue) ++ [st.nextId] := by
      rw [List.append_assoc]
    rw [show (execState sql p st).tickTasks ++ (execState sql p st).queue
        = (st.tickTasks ++ st.queue) ++ [st.nextId] from this]
    refine List.pairwise_append.mpr ⟨h.i1, List.pairwise_singleton _ _, ?_⟩
    intro x hx y hy
    rw [List.mem_singleton.mp hy]
    exact h.i3 x hx
  · intro t2 hm u hu
    have hm2 : t2 ∈ (st.tickTasks ++ st.queue) ++ [st.nextId] := by
      rw [List.append_assoc]
      exact hm
    rcases List.mem_append.mp hm2 with hm2 | hm2
    · exact h.i2 t2 hm2 u hu
    · rw [List.mem_singleton.mp hm2]
      exact h.i3s u hu
  · intro t2 hm
    have hm2 : t2 ∈ (st.tickTasks ++ st.queue) ++ [st.nextId] := by
      rw [List.append_assoc]
      exact hm
    rcases List.mem_append.mp hm2 with hm2 | hm2
    · exact Nat.lt_succ_of_lt (h.i3 t2 hm2)
    · rw [List.mem_singleton.mp hm2]
      exact Nat.lt_succ_self _
  · intro u hu
    exact Nat.lt_succ_of_lt (h.i3s u hu)
  · intro hr
    exact h.i8 hr

theorem IC2_queue_tail {st : CP} (h : IC2 st) (htt : st.tickTasks = []) :
    IC2 { st with queue := st.queue.tail } := by
  refine ⟨?_, ?_, ?_, h.i3s, h.i4, h.i5, h.i6, h.w2, h.w2b, h.i0, h.i8, h.iB⟩
  · show (st.tickTasks ++ st.queue.tail).Pairwise (· < ·)
    rw [htt]
    have old := h.i1
    rw [htt] at old
    simp only [List.nil_append] at old ⊢
    cases hq : st.queue with
    | nil => simp
    | cons q0 qr =>
      rw [hq] at old
      exact old.of_cons
  · intro t2 hm u hu
    rcases List.mem_append.mp hm with hm | hm
    · exact h.i2 t2 (List.mem_append.mpr (Or.inl hm)) u hu
    · exact h.i2 t2 (List.mem_append.mpr (Or.inr (List.tail_subset _ hm))) u hu
  · intro t2 hm
    rcases List.mem_append.mp hm with hm | hm
    · exact h.i3 t2 (List.mem_append.mpr (Or.inl hm))
    · exact h.i3 t2 (List.mem_append.mpr (Or.inr (List.tail_subset _ hm)))

/-- One plain action preserves the invariant, provided an `exec` only
happens while the next-tick queue is empty. -/
theorem IC2_step (st : CP) (a : CAct) (h : IC2 st) (hpl : plainAct a = true)
    (hw : ∀ sql p, a = CAct.exec sql p → st.tickTasks = []) :
    IC2 (step st a) := by
  cases a with
  | exec sql p =>
    have hT : st.tickTasks = [] := hw sql p rfl
    rcases step_exec_cases sql p st with hst | hst <;> rw [hst]
    · exact h
    · have hE : IC2 (execState sql p st) := IC2_execState sql p h
      unfold runIfNext
      by_cases hg : (execState sql p st).pending = none ∧
          (execState sql p st).connection = true ∧
          (execState sql p st).queue.head? = some st.nextId
      · rw [if_pos hg]
        obtain ⟨hgp, hgc, hgh⟩ := hg
        have hq : st.queue = [] := by
          cases hq2 : st.queue with
          | nil => rfl
          | cons q0 qr =>
            exfalso
            have hh : (execState sql p st).queue.head? = some q0 := by
              show (st.queue ++ [st.nextId]).head? = some q0
              rw [hq2]
              rfl
            rw [hh] at hgh
            have hq0 : q0 = st.nextId := Option.some.inj hgh
            have hlt : q0 < st.nextId := by
              refine h.i3 q0 ?_
              rw [hq2]
              exact List.mem_append.mpr (Or.inr (List.mem_cons_self q0 qr))
            exact Nat.lt_irrefl _ (hq0 ▸ hlt)
        refine IC2_runStmt_start st.nextId (IC2_queue_tail hE hT) hgp hT ?_ ?_
          (Nat.lt_succ_self _) ?_
        · intro u hu
          exact h.i3s u hu
        · intro t2 hm
          exfalso
          simp only [execState, hT, hq] at hm
          simp at hm
        · show st.resolved = true
          rw [← h.i0]
          exact hgc
      · rw [if_neg hg]
        exact hE
  | tick =>
    show IC2 (tick st)
    unfold tick
    split
    · exact h
    · next t rest heq =>
      have hrest : rest = [] := by
        have hlen := h.w2b
        rw [heq, List.length_cons] at hlen
        exact List.eq_nil_of_length_eq_zero (by omega)
      have hpend : st.pending = none := h.w2 (by rw [heq]; simp)
      subst hrest
      refine IC2_runStmt_start t ?_ hpend rfl ?_ ?_ ?_ ?_
      · refine ⟨?_, ?_, ?_, h.i3s, h.i4, h.i5, h.i6, fun hne => absurd rfl hne,
          by simp, h.i0, ?_, h.iB⟩
        · show (([] : List Nat) ++ st.queue).Pairwise (· < ·)
          have old := h.i1
          rw [heq] at old
          simp only [List.cons_append, List.nil_append] at old ⊢
          exact old.of_cons
        · intro t2 hm u hu
          refine h.i2 t2 ?_ u hu
          rw [heq]
          simp only [List.nil_append] at hm
          exact List.mem_append.mpr (Or.inr (by simpa using hm))
        · intro t2 hm
          refine h.i3 t2 ?_
          rw [heq]
          simp only [List.nil_append] at hm
          exact List.mem_append.mpr (Or.inr (by simpa using hm))
        · intro hr
          exact ⟨(h.i8 hr).1, (h.i8 hr).2.1, rfl⟩
      · intro u hu
        refine h.i2 t ?_ u hu
        rw [heq]
        simp
      · intro t2 hm
        have old := h.i1
        rw [heq] at old
        simp only [List.cons_append, List.nil_append] at old
        refine (List.pairwise_cons.mp old).1 t2 ?_
        simpa using hm
      · refine h.i3 t ?_
        rw [heq]
        simp
      · by_cases hr : st.resolved = true
        · exact hr
        · exfalso
          have h8 := (h.i8 (Bool.not_eq_true _ ▸ hr)).2.2
          rw [heq] at h8
          cases h8
  | resolveOk =>
    show IC2 (resolveOk st)
    unfold resolveOk
    dsimp only
    by_cases hres2 : st.resolved = true
    · rw [if_pos hres2]
      exact h
    · rw [if_neg hres2]
      have hres3 : st.resolved = false := Bool.not_eq_true _ ▸ hres2
      obtain ⟨hst0, hpend, htt⟩ := h.i8 hres3
      have h1 : IC2 { st with resolved := true, connection := true } :=
        ⟨h.i1, h.i2, h.i3, h.i3s, h.i4, h.i5, h.i6, h.w2, h.w2b, rfl,
          (fun hr => by cases hr), h.iB⟩
      apply IC2_callbacks
      split
      · next n rest hq =>
        rw [if_pos hpend]
        refine IC2_runStmt_start n ?_ hpend htt ?_ ?_ ?_ rfl
        · refine ⟨?_, ?_, ?_, h.i3s, h.i4, h.i5, h.i6, h.w2, h.w2b, rfl,
            (fun hr => by cases hr), h.iB⟩
          · show (st.tickTasks ++ rest).Pairwise (· < ·)
            have old := h.i1
            rw [htt, hq] at old
            simp only [List.nil_append] at old
            rw [htt]
            simp only [List.nil_append]
            exact old.of_cons
          · intro t2 hm u hu
            refine h.i2 t2 ?_ u hu
            rw [hq]
            rcases List.mem_append.mp hm with hm | hm
            · exact List.mem_append.mpr (Or.inl hm)
            · exact List.mem_append.mpr (Or.inr (List.mem_cons_of_mem n hm))
          · intro t2 hm
            refine h.i3 t2 ?_
            rw [hq]
            rcases List.mem_append.mp hm with hm | hm
            · exact List.mem_append.mpr (Or.inl hm)
            · exact List.mem_append.mpr (Or.inr (List.mem_cons_of_mem n hm))
        · intro u hu
          rw [hst0] at hu
          exact absurd hu (List.not_mem_nil u)
        · intro t2 hm
          have old := h.i1
          rw [htt, hq] at old
          simp only [List.nil_append] at old
          refine (List.pairwise_cons.mp old).1 t2 ?_
          have hm2 : t2 ∈ st.tickTasks ++ rest := hm
          rw [htt] at hm2
          simpa using hm2
        · refine h.i3 n ?_
          rw [hq]
          simp
      · exact h1
  | row s2 =>
    show IC2 (rowEv s2 st)
    unfold rowEv
    split
    · refine IC2_nextFn s2 ?_ ?_
      · exact IC2_append_other h (CEv.rowF s2) (by intro s3 hcon; cases hcon)
          rfl rfl rfl rfl rfl rfl rfl rfl
      · exact hasCb_rowF s2 st.trace
    · exact h
  | endD s2 =>
    show IC2 (endEv s2 st)
    unfold endEv
    split
    · refine IC2_nextFn s2 ?_ ?_
      · exact IC2_append_other h (CEv.endF s2) (by intro s3 hcon; cases hcon)
          rfl rfl rfl rfl rfl rfl rfl rfl
      · exact hasCb_endF s2 st.trace
    · exact h
  | errD s2 e =>
    show IC2 (errEv s2 e st)
    unfold errEv
    dsimp only
    by_cases hg : s2 ∈ st.started ∧ s2 ∉ st.finishedD
    · rw [if_pos hg]
      refine IC2_nextFn s2 ?_ ?_
      · split
        · exact IC2_append_other h (CEv.errF s2) (by intro s3 hcon; cases hcon)
            rfl rfl rfl rfl rfl rfl rfl rfl
        · exact IC2_append_other h (CEv.errF s2) (by intro s3 hcon; cases hcon)
            rfl rfl rfl rfl rfl rfl rfl rfl
      · split
        · exact hasCb_errF s2 st.trace
        · exact hasCb_errF s2 st.trace
    · rw [if_neg hg]
      exact h
  | resume r => simp [plainAct] at hpl
  | rollback sp => simp [plainAct] at hpl
  | beginT iso => simp [plainAct] at hpl
  | commitT => simp [plainAct] at hpl
  | saveT nm => simp [plainAct] at hpl
  | release => simp [plainAct] at hpl
  | close => simp [plainAct] at hpl
  | resolveErr e => simp [plainAct] at hpl
  | ready => simp [plainAct] at hpl
  | errorCb => simp [plainAct] at hpl

theorem IC2_init : IC2 CP.init := by
  refine ⟨?_, ?_, ?_, ?_, ?_, ?_, ?_, ?_, ?_, ?_, ?_, TraceOK_nil⟩ <;>
    simp [CP.init, startedIds]

theorem IC2_run (acts : List CAct) :
    ∀ st : CP, IC2 st → acts.all plainAct = true →
    execsOutsideWindow acts st = true → IC2 (runFrom st acts) := by
  induction acts with
  | nil => exact fun _ h _ _ => h
  | cons a rest ih =>
    intro st h hall hwin
    rw [List.all_cons, Bool.and_eq_true] at hall
    unfold execsOutsideWindow at hwin
    rw [Bool.and_eq_true] at hwin
    have hw : ∀ sql p, a = CAct.exec sql p → st.tickTasks = [] := by
      intro sql p ha
      subst ha
      have h1 := hwin.1
      simp only [List.isEmpty_iff] at h1
      exact h1
    exact ih (step st a) (IC2_step st a h hall.1 hw) hall.2 hwin.2

/-- C2 counterexample: in the run `exec A; exec B; (row for A); tick;
(end for A)` the driver starts statement 1 right after statement 0's
FIRST row — before statement 0's end callback — because `_run`'s `next`
fires on every driver callback; and if a third `exec` lands inside the
next-tick window, statement 2 starts before statement 1, out of
submission order. -/
theorem C2_exec_order_counterexample :
    ((runCP [CAct.resolveOk, CAct.exec "A" none, CAct.exec "B" none,
        CAct.row 0, CAct.tick, CAct.endD 0]).trace
      = [CEv.execStart 0, CEv.rowF 0, CEv.execStart 1, CEv.endF 0]) ∧
    CEv.endF 0 ∉ [CEv.execStart 0, CEv.rowF 0] ∧
    CEv.errF 0 ∉ [CEv.execStart 0, CEv.rowF 0] ∧
    ((runCP [CAct.resolveOk, CAct.exec "A" none, CAct.exec "B" none,
        CAct.row 0, CAct.exec "C" none, CAct.tick]).trace
      = [CEv.execStart 0, CEv.rowF 0, CEv.execStart 2, CEv.execStart 1]) ∧
    ¬ (startedIds (runCP [CAct.resolveOk, CAct.exec "A" none,
        CAct.exec "B" none, CAct.row 0, CAct.exec "C" none,
        CAct.tick]).trace).Pairwise (· < ·) :=
  ⟨rfl, by decide, by decide, rfl, by decide⟩

/-- C2 (amended): in every run built from connection resolution, `exec`
calls, driver callbacks and next-tick turns, in which each `exec` happens
while the next-tick queue is empty, the driver-level executions start in
exactly submission order (the `execStart` ids are strictly increasing),
and a statement starts only once every earlier-started statement has
fired at least one driver callback — but NOT necessarily its end/error
callback, since `_run`'s `next` fires on the first callback of any
kind. -/
theorem C2_exec_order (acts : List CAct)
    (hplain : acts.all plainAct = true)
    (hwin : execsOutsideWindow acts CP.init = true) :
    (startedIds (runCP acts).trace).Pairwise (· < ·) ∧
    (∀ pre s post, (runCP acts).trace = pre ++ CEv.execStart s :: post →
      ∀ t ∈ startedIds pre, hasCb t pre = true) := by
  have h := IC2_run acts CP.init IC2_init hplain hwin
  exact ⟨h.i4 ▸ h.i5, h.iB⟩

/-- Witness for the amended C2 on a concrete plain run. -/
theorem C2_exec_order_witness :
    ([CAct.resolveOk, CAct.exec "A" none, CAct.exec "B" none, CAct.row 0,
        CAct.tick, CAct.endD 0].all plainAct = true) ∧
    (execsOutsideWindow [CAct.resolveOk, CAct.exec "A" none,
        CAct.exec "B" none, CAct.row 0, CAct.tick, CAct.endD 0]
        CP.init = true) ∧
    (startedIds (runCP [CAct.resolveOk, CAct.exec "A" none,
        CAct.exec "B" none, CAct.row 0, CAct.tick,
        CAct.endD 0]).trace).Pairwise (· < ·) :=
  ⟨by decide, by decide,
   (C2_exec_order [CAct.resolveOk, CAct.exec "A" none, CAct.exec "B" none,
      CAct.row 0, CAct.tick, CAct.endD 0] (by decide) (by decide)).1⟩

end Sqli
